import Mathlib

/-!
Verification of the minesweeper core in `mines.py`.

The data model (`Vector2D`, `Cell`, `Minefield`) and the mutating operations
(`__init__`, `toggle_flag`, `visit` with `_initialize`, `_visit_cell`,
`_visit_neighbors`) are embedded shallowly:

* Python `int` becomes `Int`; the tri-state `mine` field (`None`/`True`/`False`)
  becomes `Option Bool`.
* In-place mutation becomes explicit state passing: each operation takes a
  `Minefield` and returns the updated `Minefield` together with an
  `Option` error describing the exception the Python code raises
  (`IndexError` from `__getitem__`, or a `GameOver`).  Python raises
  `GameOver` *after* having mutated the field, so the raised value travels
  next to the mutated state.
* `random.sample(population, k)` in `_initialize` is modelled by a `picks`
  parameter listing the positions of the sampled cells; the theorems carry
  the facts `sample` guarantees (distinct elements of the population) as
  hypotheses.
* The `while unvisited:` loop of `_visit_neighbors` is given a `fuel`
  parameter bounding the number of iterations, because (as proved below)
  that loop does not always terminate.  `none` means the fuel ran out.
-/

/-- Embeds `Vector2D`: an immutable pair of Python ints. -/
structure Vector2D where
  x : Int
  y : Int
deriving DecidableEq

/-- Embeds the `Vector2D.neighbors` generator: the 8 Moore neighbours, yielded
with `delta_y` in `-1, 0, 1` outermost and `delta_x` innermost, skipping
`(0, 0)`.  The list below is that loop unrolled, in yield order. -/
def Vector2D.neighbors (v : Vector2D) : List Vector2D :=
  [⟨v.x - 1, v.y - 1⟩, ⟨v.x, v.y - 1⟩, ⟨v.x + 1, v.y - 1⟩,
   ⟨v.x - 1, v.y⟩, ⟨v.x + 1, v.y⟩,
   ⟨v.x - 1, v.y + 1⟩, ⟨v.x, v.y + 1⟩, ⟨v.x + 1, v.y + 1⟩]

/-- Embeds the `Cell` dataclass.  `mine : Option Bool` is Python's
`mine: Optional[bool] = None`. -/
structure Cell where
  position : Vector2D
  mine : Option Bool := none
  flagged : Bool := false
  visited : Bool := false
deriving DecidableEq

/-- Embeds `Cell.toggle_flag`: a no-op on a visited cell, otherwise flips
`flagged`. -/
def Cell.toggleFlag (c : Cell) : Cell :=
  if c.visited then c else { c with flagged := !c.flagged }

/-- Embeds the `GameOver` enum (`LOST` / `WON`). -/
inductive GameOver where
  | LOST
  | WON
deriving DecidableEq

/-- The exceptions the mutating `Minefield` operations can raise:
`IndexError(position)` from `__getitem__`, or a `GameOver` value. -/
inductive MinesErr where
  | indexError (position : Vector2D)
  | gameOver (g : GameOver)
deriving DecidableEq

/-- Embeds the `Minefield` object state: the requested mine count, the grid
(`self._grid`, a list of rows, each row a list of cells), and `self._result`. -/
structure Minefield where
  mines : Int
  grid : List (List Cell)
  result : Option GameOver := none
deriving DecidableEq

/-- Embeds `Minefield.__init__`.  The validation order follows the source:
size check, 36-column/row rendering bound (`len(NUM_TO_STR) = 36`), negative
mine count, then `mines >= width * height`.  On success all cells start with
`mine = None`, unflagged and unvisited. -/
def mkMinefield (width height mines : Int) : Except String Minefield :=
  if width < 1 ∨ height < 1 then .error "Field is too small."
  else if width > 36 ∨ height > 36 then .error "Max field width and height are 36."
  else if mines < 0 then .error "Amount of mines cannot be negative."
  else if mines ≥ width * height then .error "Too many mines for mine field."
  else .ok { mines := mines,
             grid := (List.range height.toNat).map fun (y : Nat) =>
               (List.range width.toNat).map fun (x : Nat) =>
                 { position := ⟨(x : Int), (y : Int)⟩ } }

/-- Embeds the `width` property, `len(self._grid[0])` (the grid is never empty
for a constructed field, so `headD` never falls back to `[]` there). -/
def Minefield.width (m : Minefield) : Int := ((m.grid.headD []).length : Int)

/-- Embeds the `height` property, `len(self._grid)`. -/
def Minefield.height (m : Minefield) : Int := (m.grid.length : Int)

/-- Embeds `__contains__` for a coordinate:
`0 <= item.x < self.width and 0 <= item.y < self.height`. -/
def Minefield.contains (m : Minefield) (p : Vector2D) : Bool :=
  decide (0 ≤ p.x ∧ p.x < m.width ∧ 0 ≤ p.y ∧ p.y < m.height)

/-- Embeds `Minefield.get`:
`self._grid[position.y][position.x] if position in self else None`.
For an in-bounds position of a well-formed grid the inner lookups always
succeed, so the `bind` only mirrors the double indexing. -/
def Minefield.get (m : Minefield) (p : Vector2D) : Option Cell :=
  if m.contains p then (m.grid.get? p.y.toNat).bind fun row => row.get? p.x.toNat
  else none

/-- Embeds `__getitem__`: the cell at `position`, or an `IndexError`.
The source checks `position in self` and indexes the grid; for a well-formed
grid that is exactly `Minefield.get`, erring when it is `none`. -/
def Minefield.getitem (m : Minefield) (p : Vector2D) : Except MinesErr Cell :=
  match m.get p with
  | some c => .ok c
  | none => .error (.indexError p)

/-- Writes a cell back at position `p` (the effect of mutating the cell object
`self._grid[p.y][p.x]` in place).  Out-of-range indices leave the grid
unchanged; every call site first looks the cell up, so this branch mirrors
the source exactly on in-bounds positions. -/
def Minefield.setCell (m : Minefield) (p : Vector2D) (c : Cell) : Minefield :=
  { m with grid := m.grid.set p.y.toNat ((m.grid.getD p.y.toNat []).set p.x.toNat c) }

/-- Embeds `__iter__`: all cells, row-major. -/
def Minefield.cells (m : Minefield) : List Cell := m.grid.flatten

/-- Embeds the `_uninitialized` property:
`all(cell.mine is None for cell in self)`. -/
def Minefield.unstarted (m : Minefield) : Bool :=
  m.cells.all fun c => decide (c.mine = none)

/-- Embeds `_neighbors`: `filter(None, map(self.get, position.neighbors))` —
the in-bounds neighbour cells, in neighbour order. -/
def Minefield.neighborCells (m : Minefield) (p : Vector2D) : List Cell :=
  p.neighbors.filterMap m.get

/-- Embeds `_unvisited_neighbors`: the neighbour cells that are not visited
(note: flagged cells are *not* filtered out). -/
def Minefield.unvisitedNeighbors (m : Minefield) (p : Vector2D) : List Cell :=
  (m.neighborCells p).filter fun c => !c.visited

/-- Embeds `_neighboring_mines`: `sum(cell.mine for cell in self._neighbors(position))`.
Python's `sum` over the booleans counts the `True`s; it is only ever called
after placement, when no `mine` field is `None` any more. -/
def Minefield.neighboringMines (m : Minefield) (p : Vector2D) : Nat :=
  (m.neighborCells p).countP fun c => decide (c.mine = some true)

/-- Embeds `_neighboring_flags`. -/
def Minefield.neighboringFlags (m : Minefield) (p : Vector2D) : Nat :=
  (m.neighborCells p).countP fun c => c.flagged

/-- Embeds `_remaining_neighboring_mines`:
`max([0, mines - flags])` over Python ints. -/
def Minefield.remainingNeighboringMines (m : Minefield) (p : Vector2D) : Int :=
  max 0 ((m.neighboringMines p : Int) - (m.neighboringFlags p : Int))

/-- Embeds `_initialize`.  `self[start].mine = False` raises `IndexError`
before any mutation when `start` is out of bounds.  `sample` is modelled by
`picks` (the positions of the sampled cells, each of which has its `mine` set
to `True`); finally every still-`None` cell is resolved to `False`. -/
def Minefield.startMines (m : Minefield) (start : Vector2D) (picks : List Vector2D) :
    Minefield × Option MinesErr :=
  match m.get start with
  | none => (m, some (.indexError start))
  | some c =>
    let m1 := m.setCell start { c with mine := some false }
    let m2 := picks.foldl (fun acc q =>
      match acc.get q with
      | some cq => acc.setCell q { cq with mine := some true }
      | none => acc) m1
    ({ m2 with grid := m2.grid.map fun row => row.map fun d =>
        if d.mine = none then { d with mine := some false } else d }, none)

/-- The win-check predicate of `_visit_cell`:
`all(cell.visited for cell in self if not cell.mine)` — every cell whose
`mine` field is falsy (`None` or `False`) is visited. -/
def Minefield.winPred (m : Minefield) : Bool :=
  m.cells.all fun d => decide (d.mine = some true) || d.visited

/-- Embeds `_visit_cell` with `_end_game` inlined: a no-op on a visited or
flagged cell; otherwise mark the cell visited, then lose on a mine, else win
when every non-mine cell is visited.  `_end_game` stores the result and
raises it; the raised `GameOver` is returned next to the mutated state.
`_visit_cell` is only ever handed a cell that exists, so the `none` branch of
the lookup is never taken by the call sites. -/
def Minefield.visitCell (m : Minefield) (p : Vector2D) : Minefield × Option GameOver :=
  match m.get p with
  | none => (m, none)
  | some c =>
    if c.visited || c.flagged then (m, none)
    else
      let m1 := m.setCell p { c with visited := true }
      if c.mine = some true then
        ({ m1 with result := some .LOST }, some .LOST)
      else if m1.winPred then
        ({ m1 with result := some .WON }, some .WON)
      else (m1, none)

/-- Embeds the `while unvisited:` loop of `_visit_neighbors`.  Python pops
from the *end* of the list and `extend`s at the end; here the work list is
kept reversed, so popping takes the head, and extending with the unvisited
neighbours pushes them reversed onto the front.  `fuel` bounds the number of
iterations: `none` means the loop did not finish within `fuel` iterations
(the Python loop, having no fuel, would still be running). -/
def Minefield.visitLoop : Nat → Minefield → List Vector2D → Option (Minefield × Option GameOver)
  | _, m, [] => some (m, none)
  | 0, _, _ :: _ => none
  | fuel + 1, m, q :: rest =>
    match m.visitCell q with
    | (m', some g) => some (m', some g)
    | (m', none) =>
      if m'.neighboringMines q = 0 then
        Minefield.visitLoop fuel m'
          (((m'.unvisitedNeighbors q).map Cell.position).reverse ++ rest)
      else
        Minefield.visitLoop fuel m' rest

/-- Embeds `_visit_neighbors`: seed the work list with the unvisited
neighbours of `position`, then run the loop. -/
def Minefield.visitNeighbors (fuel : Nat) (m : Minefield) (p : Vector2D) :
    Option (Minefield × Option GameOver) :=
  Minefield.visitLoop fuel m (((m.unvisitedNeighbors p).map Cell.position).reverse)

/-- Embeds `Minefield.toggle_flag`: `self[position].toggle_flag()` —
an `IndexError` out of bounds, otherwise the cell-level toggle.  Note the
source performs no `self._result` check here. -/
def Minefield.toggleFlag (m : Minefield) (p : Vector2D) : Minefield × Option MinesErr :=
  match m.get p with
  | none => (m, some (.indexError p))
  | some c => (m.setCell p c.toggleFlag, none)

/-- Embeds `Minefield.visit`: re-raise a stored result; place mines on the
first visit (`_initialize`); visit the target cell; when the flag-adjusted
neighbouring mine count is zero, cascade through the neighbours. -/
def Minefield.visit (m : Minefield) (fuel : Nat) (picks : List Vector2D) (p : Vector2D) :
    Option (Minefield × Option MinesErr) :=
  match m.result with
  | some g => some (m, some (.gameOver g))
  | none =>
    match (if m.unstarted then m.startMines p picks else (m, none)) with
    | (m1, some e) => some (m1, some e)
    | (m1, none) =>
      match m1.get p with
      | none => some (m1, some (.indexError p))
      | some _ =>
        match m1.visitCell p with
        | (m2, some g) => some (m2, some (.gameOver g))
        | (m2, none) =>
          if m2.remainingNeighboringMines p = 0 then
            match m2.visitNeighbors fuel p with
            | none => none
            | some (m3, og) => some (m3, og.map MinesErr.gameOver)
          else some (m2, none)

/-- Grid well-formedness: at least one row, all rows of the positive uniform
length `width`, and the cell stored at row `y`, column `x` carries position
`(x, y)`.  `mkMinefield` establishes this and every operation preserves it. -/
def Minefield.WF (m : Minefield) : Prop :=
  0 < m.grid.length ∧
  (∀ row ∈ m.grid, row.length = (m.grid.headD []).length ∧ 0 < row.length) ∧
  ∀ y x row c, m.grid.get? y = some row → row.get? x = some c →
    c.position = ⟨(x : Int), (y : Int)⟩

/-- `true` iff `Minefield(w, h, n)` constructs without raising
`ValueError` (the spec's `InvalidConfiguration`). -/
def mkOk (w h n : Int) : Bool :=
  match mkMinefield w h n with
  | .ok _ => true
  | .error _ => false

/-- A concrete 1-by-1 field used as a witness input. -/
def c9field : Minefield :=
  { mines := 0, grid := [[{ position := ⟨0, 0⟩ }]], result := none }

/-- A concrete fresh 2-by-2 field with one requested mine, used as a witness
input (it is exactly what `Minefield(2, 2, 1)` constructs). -/
def c5field : Minefield :=
  { mines := 1,
    grid := [[{ position := ⟨0, 0⟩ }, { position := ⟨1, 0⟩ }],
             [{ position := ⟨0, 1⟩ }, { position := ⟨1, 1⟩ }]],
    result := none }

/-- The run refuting C4 (and exercising the flag-adjusted cascade): on a
4-by-1 field with one mine, sampled at (1,0), visit (0,0); flag the mine
(1,0) and the safe cell (2,0); then visit the flagged cell (2,0).  Returns
the states before and after that last visit. -/
def c4run : Option (Minefield × Minefield) :=
  match mkMinefield 4 1 1 with
  | .error _ => none
  | .ok m0 =>
    match m0.visit 50 [⟨1, 0⟩] ⟨0, 0⟩ with
    | some (m1, none) =>
      let m2 := ((m1.toggleFlag ⟨1, 0⟩).1.toggleFlag ⟨2, 0⟩).1
      match m2.visit 50 [] ⟨2, 0⟩ with
      | some (m3, none) => some (m2, m3)
      | _ => none
    | _ => none

/-- A concrete initialized, ongoing field used as a witness input: a 4-by-1
field with its mine at (1,0), after a first visit at (0,0). -/
def c4wfield : Minefield :=
  match mkMinefield 4 1 1 with
  | .ok m0 =>
    match m0.visit 50 [⟨1, 0⟩] ⟨0, 0⟩ with
    | some (m1, _) => m1
    | none => m0
  | .error _ => { mines := 0, grid := [] }

/-- The revealed cell at (0,0) of `c4wfield`. -/
def c4wcell : Cell :=
  { position := ⟨0, 0⟩, mine := some false, visited := true }

/-- A concrete terminal (won) field: a 2-by-1 field with one mine, sampled at
(1,0); visiting (0,0) reveals the only non-mine cell and wins. -/
def c6field : Minefield :=
  match mkMinefield 2 1 1 with
  | .ok m0 =>
    match m0.visit 10 [⟨1, 0⟩] ⟨0, 0⟩ with
    | some (m1, _) => m1
    | none => m0
  | .error _ => { mines := 0, grid := [] }

/-- The unrevealed mine cell at (1,0) of `c6field`. -/
def c6cell : Cell :=
  { position := ⟨1, 0⟩, mine := some true }

/-- The failing input for the cascade-termination claim: a fresh 5-by-1
field with one requested mine, after flagging (1,0) and (2,0). -/
def c3field : Minefield :=
  match mkMinefield 5 1 1 with
  | .ok m0 => ((m0.toggleFlag ⟨1, 0⟩).1.toggleFlag ⟨2, 0⟩).1
  | .error _ => { mines := 0, grid := [] }

/-- The state of `c3field.visit _ [⟨4,0⟩] ⟨0,0⟩` when its cascade loop
starts: mines placed (the sampled mine at (4,0)), (0,0) visited, the two
flags still set. -/
def c3mid : Minefield :=
  { mines := 1,
    grid := [[{ position := ⟨0, 0⟩, mine := some false, visited := true },
              { position := ⟨1, 0⟩, mine := some false, flagged := true },
              { position := ⟨2, 0⟩, mine := some false, flagged := true },
              { position := ⟨3, 0⟩, mine := some false },
              { position := ⟨4, 0⟩, mine := some true }]],
    result := none }

/-- `c3mid` after the loop has additionally visited (3,0); from here the
work list alternates between `[⟨1,0⟩]` and `[⟨2,0⟩]` forever. -/
def c3cyc : Minefield :=
  { mines := 1,
    grid := [[{ position := ⟨0, 0⟩, mine := some false, visited := true },
              { position := ⟨1, 0⟩, mine := some false, flagged := true },
              { position := ⟨2, 0⟩, mine := some false, flagged := true },
              { position := ⟨3, 0⟩, mine := some false, visited := true },
              { position := ⟨4, 0⟩, mine := some true }]],
    result := none }

/-- A concrete 1-by-1 field used as a witness input. -/
def c10field : Minefield :=
  { mines := 0, grid := [[{ position := ⟨0, 0⟩ }]], result := none }

/-- What `random.sample(self._uninitialized_cells, k=self.mines)` guarantees
about the modelled sample when `_initialize` actually runs (the field is
still uninitialized and the visited coordinate is on the grid): the sampled
positions are distinct cells of the grid other than the start cell, and
exactly `mines` many are drawn. -/
def ValidSample (m : Minefield) (start : Vector2D) (picks : List Vector2D) : Prop :=
  m.unstarted = true → m.contains start = true →
    picks.Nodup ∧ (picks.length : Int) = m.mines ∧
      ∀ q ∈ picks, m.contains q = true ∧ q ≠ start

/-- One caller-visible operation on a field: a `toggle_flag` call, or a
`visit` call that returns (with any outcome, error or not) — a `visit` whose
cascade never terminates produces no new state. -/
inductive Step : Minefield → Minefield → Prop where
  | flag (m : Minefield) (p : Vector2D) : Step m (m.toggleFlag p).1
  | visit (m m' : Minefield) (fuel : Nat) (picks : List Vector2D) (p : Vector2D)
      (e : Option MinesErr) (hs : ValidSample m p picks)
      (hrun : m.visit fuel picks p = some (m', e)) : Step m m'

/-- A field state reachable from some constructed field by a sequence of
`visit` / `toggle_flag` calls. -/
def Reachable (m : Minefield) : Prop :=
  ∃ w h n m0, mkMinefield w h n = .ok m0 ∧ Relation.ReflTransGen Step m0 m

/-- The inductive invariant behind win detection: the grid is well-formed;
the requested mine count fits the grid; an uninitialized field is untouched
(no result, nothing revealed); an initialized field has every mine resolved;
and the result is `WON` exactly when the field is initialized and the
win-check predicate of `_visit_cell` holds. -/
def GameInv (m : Minefield) : Prop :=
  m.WF ∧
  (0 ≤ m.mines ∧ m.mines < (m.cells.length : Int)) ∧
  (m.unstarted = true → m.result = none ∧ ∀ c ∈ m.cells, c.visited = false) ∧
  (m.unstarted = false → ∀ c ∈ m.cells, c.mine ≠ none) ∧
  (m.result = some .WON ↔ (m.unstarted = false ∧ m.winPred = true))

/-- A concrete fresh 2-by-1 field with one requested mine (exactly what
`Minefield(2, 1, 1)` constructs), used for the C8 counterexample. -/
def c8fresh : Minefield :=
  { mines := 1,
    grid := [[{ position := ⟨0, 0⟩ }, { position := ⟨1, 0⟩ }]],
    result := none }

/-- Formalizes the spec side of the cascade claim: one expansion step of the
"maximal connected region of 0-neighboring-mine cells plus bordering cells".
`Adj m q r` holds when `q` is a cell of the field with zero neighbouring
mines and `r` is a neighbouring cell of the field. -/
def Minefield.Adj (m : Minefield) (q r : Vector2D) : Prop :=
  (m.get q).isSome = true ∧ m.neighboringMines q = 0 ∧
    r ∈ q.neighbors ∧ (m.get r).isSome = true

/-- The cascade region of the spec, seeded at `p`: `p` itself, the connected
zero-neighbouring-mine region through `p`, and that region's immediate
bordering cells (when `p` has neighbouring mines, the region is `{p}`). -/
def Minefield.Reach (m : Minefield) (p q : Vector2D) : Prop :=
  Relation.ReflTransGen (m.Adj) p q

/-- The run refuting C2 as stated: on a 3-by-3 field with one mine, sampled
at (2,2), visit the centre (1,1) — it shows `1` — then flag the safe corner
(0,0) and visit (1,1) again.  The flag makes the *remaining* count 0, the
cascade fires and reveals the mine at (2,2): the game is lost.  Returns the
states before and after the second visit, and the inner match demands that
that visit raises `LOST`. -/
def c2run : Option (Minefield × Minefield) :=
  match mkMinefield 3 3 1 with
  | .error _ => none
  | .ok m0 =>
    match m0.visit 50 [⟨2, 2⟩] ⟨1, 1⟩ with
    | some (m1, none) =>
      let m2 := (m1.toggleFlag ⟨0, 0⟩).1
      match m2.visit 50 [] ⟨1, 1⟩ with
      | some (m3, some (.gameOver .LOST)) => some (m2, m3)
      | _ => none
    | _ => none

/-- A concrete fresh 4-by-1 field with one requested mine (exactly what
`Minefield(4, 1, 1)` constructs). -/
def c2w0 : Minefield :=
  { mines := 1,
    grid := [[{ position := ⟨0, 0⟩ }, { position := ⟨1, 0⟩ },
              { position := ⟨2, 0⟩ }, { position := ⟨3, 0⟩ }]],
    result := none }

/-- `c2w0` after a first visit at (3,0) with the mine sampled at (1,0):
the zero-count cell (3,0) and its border (2,0) are revealed, nothing is
flagged, and the game is still running. -/
def c2wfield : Minefield :=
  { mines := 1,
    grid := [[{ position := ⟨0, 0⟩, mine := some false },
              { position := ⟨1, 0⟩, mine := some true },
              { position := ⟨2, 0⟩, mine := some false, visited := true },
              { position := ⟨3, 0⟩, mine := some false, visited := true }]],
    result := none }

/-! ### Basic lemmas about the grid accessors -/

theorem List.get?_some_decomp {α : Type} {l : List α} {i : Nat} {a : α}
    (h : l.get? i = some a) : l = l.take i ++ a :: l.drop (i + 1) := by
  obtain ⟨hlt, hget⟩ := List.get?_eq_some.mp h
  have hdrop := List.drop_eq_getElem_cons hlt
  rw [← hget]
  simp only [List.get_eq_getElem]
  rw [← hdrop]
  exact (List.take_append_drop i l).symm

theorem Minefield.get_some_parts {m : Minefield} {p : Vector2D} {c : Cell}
    (h : m.get p = some c) :
    m.contains p = true ∧ ∃ row, m.grid.get? p.y.toNat = some row ∧
      row.get? p.x.toNat = some c := by
  unfold Minefield.get at h
  by_cases hc : m.contains p
  · simp only [hc, if_true] at h
    cases hrow : m.grid.get? p.y.toNat with
    | none => rw [hrow] at h; simp at h
    | some row =>
      rw [hrow] at h
      rw [Option.some_bind] at h
      exact ⟨hc, row, rfl, h⟩
  · simp [hc] at h

theorem Minefield.get_none_of_not_contains {m : Minefield} {p : Vector2D}
    (h : m.contains p = false) : m.get p = none := by
  unfold Minefield.get
  simp [h]

theorem Minefield.contains_bounds {m : Minefield} {p : Vector2D}
    (h : m.contains p = true) :
    0 ≤ p.x ∧ p.x < m.width ∧ 0 ≤ p.y ∧ p.y < m.height := by
  simpa [Minefield.contains] using h

@[simp] theorem Minefield.mines_setCell (m : Minefield) (q : Vector2D) (c : Cell) :
    (m.setCell q c).mines = m.mines := rfl

@[simp] theorem Minefield.result_setCell (m : Minefield) (q : Vector2D) (c : Cell) :
    (m.setCell q c).result = m.result := rfl

@[simp] theorem Minefield.height_setCell (m : Minefield) (q : Vector2D) (c : Cell) :
    (m.setCell q c).height = m.height := by
  simp [Minefield.setCell, Minefield.height]

@[simp] theorem Minefield.width_setCell (m : Minefield) (q : Vector2D) (c : Cell) :
    (m.setCell q c).width = m.width := by
  unfold Minefield.setCell Minefield.width
  cases hg : m.grid with
  | nil => simp
  | cons r rs =>
    cases hy : q.y.toNat with
    | zero => simp [List.set]
    | succ n => simp [List.set]

@[simp] theorem Minefield.contains_setCell (m : Minefield) (q : Vector2D) (c : Cell)
    (p : Vector2D) : (m.setCell q c).contains p = m.contains p := by
  simp [Minefield.contains]

theorem Minefield.get_eq_of_contains {m : Minefield} {p : Vector2D}
    (h : m.contains p = true) :
    m.get p = (m.grid.get? p.y.toNat).bind fun row => row.get? p.x.toNat := by
  unfold Minefield.get
  rw [h]
  simp

theorem Minefield.grid_row_exists {m : Minefield} {p : Vector2D}
    (h : m.contains p = true) : ∃ row, m.grid.get? p.y.toNat = some row := by
  have hb := Minefield.contains_bounds h
  have : p.y < (m.grid.length : Int) := hb.2.2.2
  cases hr : m.grid.get? p.y.toNat with
  | none =>
    have := List.get?_eq_none.mp hr
    omega
  | some r => exact ⟨r, rfl⟩

theorem Minefield.get_setCell_self {m : Minefield} {p : Vector2D} {c0 : Cell}
    (h : m.get p = some c0) (c : Cell) : (m.setCell p c).get p = some c := by
  obtain ⟨hc, row, hrow, hcell⟩ := Minefield.get_some_parts h
  obtain ⟨hylt, -⟩ := List.get?_eq_some.mp hrow
  obtain ⟨hxlt, -⟩ := List.get?_eq_some.mp hcell
  have hc' : (m.setCell p c).contains p = true := by
    rw [Minefield.contains_setCell]; exact hc
  have hgetD : m.grid.getD p.y.toNat [] = row := by
    rw [List.getD_eq_get?, hrow]; rfl
  rw [Minefield.get_eq_of_contains hc']
  unfold Minefield.setCell
  simp only
  rw [hgetD, List.get?_set_eq_of_lt _ hylt, Option.some_bind]
  exact List.get?_set_eq_of_lt _ hxlt

theorem Minefield.get_setCell_ne {m : Minefield} {q : Vector2D} (c : Cell)
    {p : Vector2D} (hq : m.contains q = true) (hne : p ≠ q) :
    (m.setCell q c).get p = m.get p := by
  by_cases hp : m.contains p = true
  · have hbp := Minefield.contains_bounds hp
    have hbq := Minefield.contains_bounds hq
    have hcs : (m.setCell q c).contains p = true := by
      rw [Minefield.contains_setCell]; exact hp
    rw [Minefield.get_eq_of_contains hcs, Minefield.get_eq_of_contains hp]
    have hne' : p.x ≠ q.x ∨ p.y ≠ q.y := by
      by_contra hcon
      push_neg at hcon
      refine hne ?_
      cases p; cases q
      simp only [Vector2D.mk.injEq]
      simpa using hcon
    unfold Minefield.setCell
    simp only
    by_cases hyy : q.y.toNat = p.y.toNat
    · have hxx : q.x.toNat ≠ p.x.toNat := by omega
      obtain ⟨rowq, hrowq⟩ := Minefield.grid_row_exists hq
      obtain ⟨hylt, -⟩ := List.get?_eq_some.mp hrowq
      have hgetD : m.grid.getD q.y.toNat [] = rowq := by
        rw [List.getD_eq_get?, hrowq]; rfl
      rw [hgetD, ← hyy, List.get?_set_eq_of_lt _ hylt, hrowq, Option.some_bind,
        Option.some_bind]
      exact List.get?_set_ne _ _ hxx
    · rw [List.get?_set_ne _ _ hyy]
  · have hp' : m.contains p = false := by
      revert hp; cases m.contains p <;> simp
    rw [Minefield.get_none_of_not_contains hp',
      Minefield.get_none_of_not_contains (by rw [Minefield.contains_setCell]; exact hp')]

/-- Writing the cell at an existing position changes exactly that entry of the
row-major cell list. -/
theorem Minefield.cells_setCell_decomp {m : Minefield} {q : Vector2D} {cq : Cell}
    (h : m.get q = some cq) (c : Cell) :
    ∃ pre post, m.cells = pre ++ cq :: post ∧
      (m.setCell q c).cells = pre ++ c :: post := by
  obtain ⟨hc, row, hrow, hcell⟩ := Minefield.get_some_parts h
  obtain ⟨hylt, -⟩ := List.get?_eq_some.mp hrow
  obtain ⟨hxlt, -⟩ := List.get?_eq_some.mp hcell
  have hgetD : m.grid.getD q.y.toNat [] = row := by
    rw [List.getD_eq_get?, hrow]; rfl
  refine ⟨(m.grid.take q.y.toNat).flatten ++ row.take q.x.toNat,
          row.drop (q.x.toNat + 1) ++ (m.grid.drop (q.y.toNat + 1)).flatten, ?_, ?_⟩
  · unfold Minefield.cells
    conv_lhs => rw [List.get?_some_decomp hrow]
    rw [List.flatten_append, List.flatten_cons]
    conv_lhs => rw [List.get?_some_decomp hcell]
    simp [List.append_assoc]
  · unfold Minefield.cells Minefield.setCell
    simp only
    rw [hgetD, List.set_eq_take_cons_drop _ hylt, List.flatten_append,
      List.flatten_cons, List.set_eq_take_cons_drop _ hxlt]
    simp [List.append_assoc]

theorem Minefield.cells_countP_setCell {m : Minefield} {q : Vector2D} {cq : Cell}
    (h : m.get q = some cq) (c : Cell) (P : Cell → Bool) :
    ((m.setCell q c).cells).countP P + (if P cq then 1 else 0)
      = m.cells.countP P + (if P c then 1 else 0) := by
  obtain ⟨pre, post, h1, h2⟩ := Minefield.cells_setCell_decomp h c
  rw [h1, h2]
  simp only [List.countP_append, List.countP_cons]
  omega

theorem Minefield.cells_all_setCell {m : Minefield} {q : Vector2D} {cq : Cell}
    (h : m.get q = some cq) (c : Cell) (P : Cell → Bool) (hP : P c = P cq) :
    ((m.setCell q c).cells).all P = m.cells.all P := by
  obtain ⟨pre, post, h1, h2⟩ := Minefield.cells_setCell_decomp h c
  rw [h1, h2]
  simp [List.all_append, hP]

theorem Minefield.cells_length_setCell {m : Minefield} {q : Vector2D} {cq : Cell}
    (h : m.get q = some cq) (c : Cell) :
    ((m.setCell q c).cells).length = m.cells.length := by
  obtain ⟨pre, post, h1, h2⟩ := Minefield.cells_setCell_decomp h c
  rw [h1, h2]
  simp

theorem Minefield.wf_get_position {m : Minefield} (hwf : m.WF) {p : Vector2D}
    {c : Cell} (h : m.get p = some c) : c.position = p := by
  obtain ⟨hc, row, hrow, hcell⟩ := Minefield.get_some_parts h
  have hb := Minefield.contains_bounds hc
  rw [hwf.2.2 _ _ _ _ hrow hcell]
  cases p with
  | mk px py =>
    simp only [Vector2D.mk.injEq]
    simp only [Minefield.width, Minefield.height] at hb
    constructor <;> omega

theorem Minefield.wf_contains_get {m : Minefield} (hwf : m.WF) {p : Vector2D}
    (hc : m.contains p = true) : ∃ c, m.get p = some c := by
  obtain ⟨row, hrow⟩ := Minefield.grid_row_exists hc
  have hb := Minefield.contains_bounds hc
  have hlen := (hwf.2.1 row (List.get?_mem hrow)).1
  have hxlt : p.x.toNat < row.length := by
    have hx : p.x < m.width := hb.2.1
    unfold Minefield.width at hx
    omega
  cases hcell : row.get? p.x.toNat with
  | none =>
    have := List.get?_eq_none.mp hcell
    omega
  | some c =>
    refine ⟨c, ?_⟩
    rw [Minefield.get_eq_of_contains hc, hrow, Option.some_bind, hcell]

theorem Minefield.get_mem_cells {m : Minefield} {p : Vector2D} {c : Cell}
    (h : m.get p = some c) : c ∈ m.cells := by
  obtain ⟨hc, row, hrow, hcell⟩ := Minefield.get_some_parts h
  exact List.mem_flatten.mpr ⟨row, List.get?_mem hrow, List.get?_mem hcell⟩

theorem Minefield.wf_mem_get {m : Minefield} (hwf : m.WF) {c : Cell}
    (h : c ∈ m.cells) : m.get c.position = some c := by
  obtain ⟨row, hrowmem, hcmem⟩ := List.mem_flatten.mp h
  obtain ⟨y, hrow⟩ := List.mem_iff_get?.mp hrowmem
  obtain ⟨x, hcell⟩ := List.mem_iff_get?.mp hcmem
  have hpos := hwf.2.2 _ _ _ _ hrow hcell
  obtain ⟨hylt, -⟩ := List.get?_eq_some.mp hrow
  obtain ⟨hxlt, -⟩ := List.get?_eq_some.mp hcell
  have hlen := (hwf.2.1 row hrowmem).1
  have hcont : m.contains c.position = true := by
    unfold Minefield.contains Minefield.width Minefield.height
    rw [hpos]
    simp only [decide_eq_true_eq]
    refine ⟨by omega, by omega, by omega, by omega⟩
  rw [Minefield.get_eq_of_contains hcont, hpos]
  simp only [Int.toNat_natCast]
  rw [hrow, Option.some_bind, hcell]

theorem Minefield.wf_setCell {m : Minefield} (hwf : m.WF) {q : Vector2D}
    {cq : Cell} (h : m.get q = some cq) {c : Cell}
    (hpos : c.position = cq.position) : (m.setCell q c).WF := by
  obtain ⟨hc, row, hrow, hcell⟩ := Minefield.get_some_parts h
  obtain ⟨hylt, -⟩ := List.get?_eq_some.mp hrow
  obtain ⟨hxlt, -⟩ := List.get?_eq_some.mp hcell
  have hgetD : m.grid.getD q.y.toNat [] = row := by
    rw [List.getD_eq_get?, hrow]; rfl
  have hcqpos := hwf.2.2 _ _ _ _ hrow hcell
  have hw : ((m.setCell q c).grid.headD []).length = (m.grid.headD []).length := by
    have hww := Minefield.width_setCell m q c
    unfold Minefield.width at hww
    omega
  obtain ⟨hwf1, hwf2, hwf3⟩ := hwf
  refine ⟨?_, ?_, ?_⟩
  · unfold Minefield.setCell
    simpa using hwf1
  · intro row' hrow'
    rw [hw]
    unfold Minefield.setCell at hrow'
    simp only at hrow'
    rw [hgetD] at hrow'
    rcases List.mem_or_eq_of_mem_set hrow' with hmem | heq
    · exact hwf2 row' hmem
    · subst heq
      rw [List.length_set]
      exact hwf2 row (List.get?_mem hrow)
  · intro y x row' c' hrow' hcell'
    unfold Minefield.setCell at hrow'
    simp only at hrow'
    rw [hgetD] at hrow'
    by_cases hy : q.y.toNat = y
    · subst hy
      rw [List.get?_set_eq_of_lt _ hylt] at hrow'
      injection hrow' with hrow''
      subst hrow''
      by_cases hx : q.x.toNat = x
      · subst hx
        rw [List.get?_set_eq_of_lt _ hxlt] at hcell'
        injection hcell' with hcell''
        subst hcell''
        rw [hpos, hcqpos]
      · rw [List.get?_set_ne _ _ hx] at hcell'
        exact hwf3 _ _ _ _ hrow hcell'
    · rw [List.get?_set_ne _ _ hy] at hrow'
      exact hwf3 _ _ _ _ hrow' hcell'

/-! ### Structure of a freshly constructed field -/

theorem List.headD_eq_get?D {α : Type} (l : List α) (d : α) :
    l.headD d = (l.get? 0).getD d := by
  cases l <;> rfl

theorem List.get?_map_range {α : Type} {f : Nat → α} {k n : Nat} :
    ((List.range n).map f).get? k = if k < n then some (f k) else none := by
  by_cases hk : k < n
  · rw [List.get?_map, List.get?_range hk]
    simp [hk]
  · have hlen : ((List.range n).map f).length ≤ k := by
      simp
      omega
    rw [List.get?_eq_none.mpr hlen]
    simp [hk]

theorem mkMinefield_ok_parts {w h n : Int} {m : Minefield}
    (hmk : mkMinefield w h n = .ok m) :
    1 ≤ w ∧ 1 ≤ h ∧ w ≤ 36 ∧ h ≤ 36 ∧ 0 ≤ n ∧ n < w * h ∧
    m.mines = n ∧ m.result = none ∧
    m.grid = (List.range h.toNat).map (fun y => (List.range w.toNat).map fun x =>
      { position := ⟨(x : Int), (y : Int)⟩ }) := by
  unfold mkMinefield at hmk
  split_ifs at hmk with h1 h2 h3 h4
  injection hmk with hmk'
  subst hmk'
  push_neg at h1 h2
  refine ⟨by omega, by omega, by omega, by omega, by omega, by omega, rfl, rfl, rfl⟩

theorem mkMinefield_grid_get? {w h n : Int} {m : Minefield}
    (hmk : mkMinefield w h n = .ok m) (y x : Nat) :
    (m.grid.get? y).bind (fun row => row.get? x) =
      if y < h.toNat ∧ x < w.toNat then
        some { position := ⟨(x : Int), (y : Int)⟩ }
      else none := by
  obtain ⟨-, -, -, -, -, -, -, -, hgrid⟩ := mkMinefield_ok_parts hmk
  rw [hgrid, List.get?_map_range]
  by_cases hy : y < h.toNat
  · simp only [hy, if_true]
    rw [Option.some_bind, List.get?_map_range]
    by_cases hx : x < w.toNat
    · simp [hx, hy]
    · simp [hx, hy]
  · simp [hy]

theorem mkMinefield_width {w h n : Int} {m : Minefield}
    (hmk : mkMinefield w h n = .ok m) : m.width = w ∧ m.height = h := by
  obtain ⟨h1, h2, -, -, -, -, -, -, hgrid⟩ := mkMinefield_ok_parts hmk
  constructor
  · unfold Minefield.width
    rw [List.headD_eq_get?D, hgrid, List.get?_map_range]
    have hh : 0 < h.toNat := by omega
    simp only [hh, if_true]
    simp
    omega
  · unfold Minefield.height
    rw [hgrid]
    simp
    omega

theorem mkMinefield_wf {w h n : Int} {m : Minefield}
    (hmk : mkMinefield w h n = .ok m) : m.WF := by
  obtain ⟨h1, h2, -, -, -, -, -, -, hgrid⟩ := mkMinefield_ok_parts hmk
  have hhead : (m.grid.headD []).length = w.toNat := by
    rw [hgrid, List.headD_eq_get?D, List.get?_map_range]
    have hh : 0 < h.toNat := by omega
    simp [hh]
  refine ⟨?_, ?_, ?_⟩
  · rw [hgrid]
    simp
    omega
  · intro row hrow
    rw [hgrid] at hrow
    obtain ⟨y, -, hy⟩ := List.mem_map.mp hrow
    rw [hhead, ← hy]
    simp
    omega
  · intro y x row c hrow hcell
    have hgg := mkMinefield_grid_get? hmk y x
    rw [hrow, Option.some_bind, hcell] at hgg
    by_cases hin : y < h.toNat ∧ x < w.toNat
    · rw [if_pos hin] at hgg
      injection hgg with hgg'
      rw [hgg']
    · rw [if_neg hin] at hgg
      exact Option.noConfusion hgg

theorem mkMinefield_cells {w h n : Int} {m : Minefield}
    (hmk : mkMinefield w h n = .ok m) :
    (∀ c ∈ m.cells, c.mine = none ∧ c.flagged = false ∧ c.visited = false) ∧
    m.cells.length = h.toNat * w.toNat := by
  obtain ⟨h1, h2, -, -, -, -, -, -, hgrid⟩ := mkMinefield_ok_parts hmk
  constructor
  · intro c hc
    obtain ⟨row, hrowmem, hcmem⟩ := List.mem_flatten.mp hc
    rw [hgrid] at hrowmem
    obtain ⟨y, -, hy⟩ := List.mem_map.mp hrowmem
    rw [← hy] at hcmem
    obtain ⟨x, -, hx⟩ := List.mem_map.mp hcmem
    rw [← hx]
    exact ⟨rfl, rfl, rfl⟩
  · unfold Minefield.cells
    rw [hgrid, List.length_flatten, List.map_map]
    simp only [Function.comp_def, List.length_map, List.length_range]
    have hrepl : (List.range h.toNat).map (fun _ => w.toNat)
        = List.replicate h.toNat w.toNat := by
      simp [List.map_const']
    rw [hrepl, List.sum_replicate, smul_eq_mul]

theorem mkMinefield_unstarted {w h n : Int} {m : Minefield}
    (hmk : mkMinefield w h n = .ok m) : m.unstarted = true := by
  unfold Minefield.unstarted
  rw [List.all_eq_true]
  intro c hc
  have := ((mkMinefield_cells hmk).1 c hc).1
  simp [this]

/-! ### How `_visit_cell` changes the state -/

theorem Minefield.get_eq_of_grid_eq {m1 m2 : Minefield} (h : m1.grid = m2.grid)
    (p : Vector2D) : m1.get p = m2.get p := by
  unfold Minefield.get Minefield.contains Minefield.width Minefield.height
  rw [h]

theorem Minefield.visitCell_grid (m : Minefield) (q : Vector2D) :
    (m.visitCell q).1.grid = m.grid ∨
    ∃ c, m.get q = some c ∧ c.visited = false ∧ c.flagged = false ∧
      (m.visitCell q).1.grid = (m.setCell q { c with visited := true }).grid := by
  unfold Minefield.visitCell
  cases hg : m.get q with
  | none => left; rfl
  | some c =>
    simp only
    by_cases hvf : (c.visited || c.flagged) = true
    · rw [if_pos hvf]
      left; rfl
    · rw [if_neg hvf]
      right
      simp only [Bool.or_eq_true, not_or, Bool.not_eq_true] at hvf
      refine ⟨c, rfl, hvf.1, hvf.2, ?_⟩
      split_ifs <;> rfl

theorem Minefield.visitCell_result_none {m : Minefield} {q : Vector2D}
    (h : (m.visitCell q).2 = none) : (m.visitCell q).1.result = m.result := by
  unfold Minefield.visitCell at h ⊢
  cases hg : m.get q with
  | none => rfl
  | some c =>
    rw [hg] at h
    simp only at h ⊢
    by_cases hvf : (c.visited || c.flagged) = true
    · rw [if_pos hvf]
    · rw [if_neg hvf] at h ⊢
      split_ifs at h ⊢ <;> simp_all

theorem Minefield.visitCell_get_mine (m : Minefield) (q p : Vector2D) :
    ((m.visitCell q).1.get p).map Cell.mine = (m.get p).map Cell.mine := by
  rcases Minefield.visitCell_grid m q with hgr | ⟨c, hg, hv, hf, hgr⟩
  · rw [Minefield.get_eq_of_grid_eq hgr]
  · rw [Minefield.get_eq_of_grid_eq hgr]
    by_cases hpq : p = q
    · subst hpq
      rw [Minefield.get_setCell_self hg, hg]
      rfl
    · rw [Minefield.get_setCell_ne _ (Minefield.get_some_parts hg).1 hpq]

theorem Minefield.visitCell_get_flagged (m : Minefield) (q p : Vector2D) :
    ((m.visitCell q).1.get p).map Cell.flagged = (m.get p).map Cell.flagged := by
  rcases Minefield.visitCell_grid m q with hgr | ⟨c, hg, hv, hf, hgr⟩
  · rw [Minefield.get_eq_of_grid_eq hgr]
  · rw [Minefield.get_eq_of_grid_eq hgr]
    by_cases hpq : p = q
    · subst hpq
      rw [Minefield.get_setCell_self hg, hg]
      rfl
    · rw [Minefield.get_setCell_ne _ (Minefield.get_some_parts hg).1 hpq]

/-- A cell that is already visited or flagged is never changed by
`_visit_cell`, no matter which cell is being visited. -/
theorem Minefield.visitCell_frozen {m : Minefield} {p : Vector2D} (q : Vector2D)
    (hp : (m.get p).map (fun c => c.visited || c.flagged) = some true) :
    (m.visitCell q).1.get p = m.get p := by
  rcases Minefield.visitCell_grid m q with hgr | ⟨c, hg, hv, hf, hgr⟩
  · rw [Minefield.get_eq_of_grid_eq hgr]
  · rw [Minefield.get_eq_of_grid_eq hgr]
    by_cases hpq : p = q
    · subst hpq
      rw [hg] at hp
      simp [hv, hf] at hp
    · rw [Minefield.get_setCell_ne _ (Minefield.get_some_parts hg).1 hpq]

theorem Minefield.visitCell_visited_mono {m : Minefield} {p : Vector2D} (q : Vector2D)
    (hp : (m.get p).map Cell.visited = some true) :
    ((m.visitCell q).1.get p).map Cell.visited = some true := by
  rcases Minefield.visitCell_grid m q with hgr | ⟨c, hg, hv, hf, hgr⟩
  · rw [Minefield.get_eq_of_grid_eq hgr]; exact hp
  · rw [Minefield.get_eq_of_grid_eq hgr]
    by_cases hpq : p = q
    · subst hpq
      rw [Minefield.get_setCell_self hg]
      rfl
    · rw [Minefield.get_setCell_ne _ (Minefield.get_some_parts hg).1 hpq]
      exact hp

theorem Minefield.visitCell_visited_source {m : Minefield} {p : Vector2D} (q : Vector2D)
    (hp : ((m.visitCell q).1.get p).map Cell.visited = some true) :
    (m.get p).map Cell.visited = some true ∨ p = q := by
  by_cases hpq : p = q
  · right; exact hpq
  · left
    rcases Minefield.visitCell_grid m q with hgr | ⟨c, hg, hv, hf, hgr⟩
    · rw [Minefield.get_eq_of_grid_eq hgr] at hp; exact hp
    · rw [Minefield.get_eq_of_grid_eq hgr,
        Minefield.get_setCell_ne _ (Minefield.get_some_parts hg).1 hpq] at hp
      exact hp

/-! ### Invariants of the `_visit_neighbors` work-set loop -/

theorem Minefield.visitLoop_invariants {fuel : Nat} {m m' : Minefield}
    {stack : List Vector2D} {og : Option GameOver}
    (h : Minefield.visitLoop fuel m stack = some (m', og)) :
    (∀ p, (m'.get p).map Cell.mine = (m.get p).map Cell.mine) ∧
    (∀ p, (m'.get p).map Cell.flagged = (m.get p).map Cell.flagged) ∧
    (∀ p, (m.get p).map (fun c => c.visited || c.flagged) = some true →
      m'.get p = m.get p) ∧
    (∀ p, (m.get p).map Cell.visited = some true →
      (m'.get p).map Cell.visited = some true) := by
  induction fuel generalizing m stack with
  | zero =>
    cases stack with
    | nil =>
      simp only [Minefield.visitLoop] at h
      injection h with h'
      injection h' with h1 h2
      subst h1
      exact ⟨fun _ => rfl, fun _ => rfl, fun _ _ => rfl, fun _ hp => hp⟩
    | cons q rest =>
      simp only [Minefield.visitLoop] at h
      exact Option.noConfusion h
  | succ fuel ih =>
    cases stack with
    | nil =>
      simp only [Minefield.visitLoop] at h
      injection h with h'
      injection h' with h1 h2
      subst h1
      exact ⟨fun _ => rfl, fun _ => rfl, fun _ _ => rfl, fun _ hp => hp⟩
    | cons q rest =>
      simp only [Minefield.visitLoop] at h
      rcases hvc : m.visitCell q with ⟨m1, og1⟩
      rw [hvc] at h
      cases og1 with
      | some g =>
        simp only at h
        injection h with h'
        injection h' with h1 h2
        subst h1
        refine ⟨?_, ?_, ?_, ?_⟩
        · intro p
          have := Minefield.visitCell_get_mine m q p
          rw [hvc] at this
          exact this
        · intro p
          have := Minefield.visitCell_get_flagged m q p
          rw [hvc] at this
          exact this
        · intro p hp
          have := Minefield.visitCell_frozen q hp
          rw [hvc] at this
          exact this
        · intro p hp
          have := Minefield.visitCell_visited_mono q hp
          rw [hvc] at this
          exact this
      | none =>
        simp only at h
        have hmine : ∀ p, (m1.get p).map Cell.mine = (m.get p).map Cell.mine := by
          intro p
          have := Minefield.visitCell_get_mine m q p
          rw [hvc] at this
          exact this
        have hflag : ∀ p, (m1.get p).map Cell.flagged = (m.get p).map Cell.flagged := by
          intro p
          have := Minefield.visitCell_get_flagged m q p
          rw [hvc] at this
          exact this
        have hfroz : ∀ p, (m.get p).map (fun c => c.visited || c.flagged) = some true →
            m1.get p = m.get p := by
          intro p hp
          have := Minefield.visitCell_frozen q hp
          rw [hvc] at this
          exact this
        have hmono : ∀ p, (m.get p).map Cell.visited = some true →
            (m1.get p).map Cell.visited = some true := by
          intro p hp
          have := Minefield.visitCell_visited_mono q hp
          rw [hvc] at this
          exact this
        have hnext : ∃ stack', Minefield.visitLoop fuel m1 stack' = some (m', og) := by
          by_cases hz : m1.neighboringMines q = 0
          · rw [if_pos hz] at h
            exact ⟨_, h⟩
          · rw [if_neg hz] at h
            exact ⟨_, h⟩
        obtain ⟨stack', h'⟩ := hnext
        obtain ⟨ih1, ih2, ih3, ih4⟩ := ih h'
        refine ⟨?_, ?_, ?_, ?_⟩
        · intro p; rw [ih1 p, hmine p]
        · intro p; rw [ih2 p, hflag p]
        · intro p hp
          have h1 := hfroz p hp
          have h2 := ih3 p (by rw [h1]; exact hp)
          rw [h2, h1]
        · intro p hp
          exact ih4 p (hmono p hp)

/-! ### Lemmas about `_initialize` (mine placement) -/

theorem Minefield.width_grid_map (m : Minefield) (f : Cell → Cell) :
    ({ m with grid := m.grid.map fun row => row.map f } : Minefield).width
      = m.width := by
  unfold Minefield.width
  cases m.grid <;> simp

theorem Minefield.contains_grid_map (m : Minefield) (f : Cell → Cell)
    (p : Vector2D) :
    ({ m with grid := m.grid.map fun row => row.map f } : Minefield).contains p
      = m.contains p := by
  unfold Minefield.contains Minefield.height
  rw [Minefield.width_grid_map]
  simp

theorem Minefield.get_grid_map (m : Minefield) (f : Cell → Cell) (p : Vector2D) :
    ({ m with grid := m.grid.map fun row => row.map f } : Minefield).get p
      = (m.get p).map f := by
  unfold Minefield.get
  rw [Minefield.contains_grid_map]
  by_cases hc : m.contains p = true
  · rw [hc]
    simp only [if_true]
    show ((m.grid.map _).get? _).bind _ = _
    rw [List.get?_map]
    cases hrow : m.grid.get? p.y.toNat with
    | none => simp
    | some row => simp [List.get?_map]
  · have hc' : m.contains p = false := by
      revert hc; cases m.contains p <;> simp
    rw [hc']
    simp

theorem Minefield.pickFold_result (picks : List Vector2D) (acc : Minefield) :
    (picks.foldl (fun acc q => match acc.get q with
      | some cq => acc.setCell q { cq with mine := some true }
      | none => acc) acc).result = acc.result := by
  induction picks generalizing acc with
  | nil => rfl
  | cons q rest ih =>
    rw [List.foldl_cons]
    rw [ih]
    cases hq : acc.get q <;> simp

theorem Minefield.pickFold_get_ne (picks : List Vector2D) (acc : Minefield)
    (p : Vector2D) (hp : ∀ q ∈ picks, q ≠ p) :
    (picks.foldl (fun acc q => match acc.get q with
      | some cq => acc.setCell q { cq with mine := some true }
      | none => acc) acc).get p = acc.get p := by
  induction picks generalizing acc with
  | nil => rfl
  | cons q rest ih =>
    rw [List.foldl_cons]
    have hstep : (match acc.get q with
        | some cq => acc.setCell q { cq with mine := some true }
        | none => acc).get p = acc.get p := by
      cases hq : acc.get q with
      | none => rfl
      | some cq =>
        simp only
        exact Minefield.get_setCell_ne _ (Minefield.get_some_parts hq).1
          (fun h => hp q (List.mem_cons_self q rest) (h ▸ rfl))
    rw [ih _ (fun r hr => hp r (List.mem_cons_of_mem q hr))]
    exact hstep

theorem Minefield.startMines_mine_at_start {m : Minefield} {s : Vector2D}
    {c : Cell} {picks : List Vector2D} (hc : m.get s = some c)
    (hpicks : ∀ q ∈ picks, q ≠ s) :
    (m.startMines s picks).2 = none ∧
    (((m.startMines s picks).1).get s).map Cell.mine = some (some false) ∧
    (m.startMines s picks).1.result = m.result := by
  unfold Minefield.startMines
  rw [hc]
  simp only
  refine ⟨trivial, ?_, ?_⟩
  · rw [Minefield.get_grid_map, Minefield.pickFold_get_ne _ _ _ hpicks,
      Minefield.get_setCell_self hc]
    simp
  · have h1 : ∀ (mm : Minefield) (g : List (List Cell)),
        ({ mm with grid := g } : Minefield).result = mm.result := fun _ _ => rfl
    rw [h1, Minefield.pickFold_result]
    rfl

theorem Minefield.visitCell_noop {m : Minefield} {p : Vector2D} {c : Cell}
    (hc : m.get p = some c) (hvf : (c.visited || c.flagged) = true) :
    m.visitCell p = (m, none) := by
  unfold Minefield.visitCell
  rw [hc]
  simp only
  rw [if_pos hvf]

/-! ### Claim C1 -/

/-- C1, counterexample: the claim says construction fails iff
`W < 1 ∨ H < 1 ∨ M < 0 ∨ M ≥ W*H − 1` and in particular that
`Minefield(3, 3, 8)` fails.  In the code the rejection threshold is
`mines >= width * height`, so `Minefield(3, 3, 8)` succeeds (`8 < 9`);
conversely the claim predicts `Minefield(37, 1, 0)` succeeds, but the code
rejects widths above 36. -/
theorem C1_counterexample : mkOk 3 3 8 = true ∧ mkOk 37 1 0 = false := by
  constructor <;> decide

/-- C1 (amended): construction of `Minefield(W, H, M)` fails with
`ValueError` (the spec's `InvalidConfiguration`) if and only if
`W < 1`, `H < 1`, `W > 36`, `H > 36`, `M < 0`, or `M ≥ W*H`; in particular
`Minefield(3, 3, 8)` succeeds. -/
theorem C1_construction_ok_iff (w h n : Int) :
    mkOk w h n = true ↔
      ¬(w < 1 ∨ h < 1 ∨ w > 36 ∨ h > 36 ∨ n < 0 ∨ n ≥ w * h) := by
  unfold mkOk mkMinefield
  split_ifs with h1 h2 h3 h4
  all_goals simp
  all_goals omega

/-! ### Claim C9 -/

/-- C9: on a non-terminal field, `visit` and `toggle_flag` at an out-of-bounds
coordinate raise `IndexError` (the spec's `OutOfBounds`) and leave the field
state entirely unchanged; in particular an out-of-bounds first visit does not
trigger mine placement, because `_initialize` raises from `self[start]`
before mutating anything. -/
theorem C9_out_of_bounds_noop (m : Minefield) (p : Vector2D) (fuel : Nat)
    (picks : List Vector2D) (hres : m.result = none) (hp : m.contains p = false) :
    m.toggleFlag p = (m, some (.indexError p)) ∧
    m.visit fuel picks p = some (m, some (.indexError p)) := by
  constructor
  · unfold Minefield.toggleFlag
    rw [Minefield.get_none_of_not_contains hp]
  · unfold Minefield.visit
    rw [hres]
    simp only
    by_cases hu : m.unstarted = true
    · rw [if_pos hu]
      unfold Minefield.startMines
      rw [Minefield.get_none_of_not_contains hp]
    · rw [if_neg hu]
      simp only
      rw [Minefield.get_none_of_not_contains hp]

/-- C9, witness at a concrete field and coordinate. -/
theorem C9_witness :
    (c9field.result = none ∧ c9field.contains ⟨5, 5⟩ = false) ∧
    (c9field.toggleFlag ⟨5, 5⟩ = (c9field, some (.indexError ⟨5, 5⟩)) ∧
     c9field.visit 3 [] ⟨5, 5⟩ = some (c9field, some (.indexError ⟨5, 5⟩))) :=
  ⟨⟨rfl, by decide⟩, C9_out_of_bounds_noop c9field ⟨5, 5⟩ 3 [] rfl (by decide)⟩

/-! ### Claim C10 -/

/-- C10: `Minefield.get` is total — for a well-formed grid (as built by the
constructor and preserved by every operation) it returns the cell stored at
the coordinate exactly when the coordinate is in bounds, and `none` for any
other coordinate (negative components included); it never returns a cell at
a different position.  Totality itself is inherent: `get` is a Lean
function, mirroring that the Python expression only indexes the grid after
the `position in self` bounds check. -/
theorem C10_get_total (m : Minefield) (p : Vector2D) (hwf : m.WF) :
    (m.contains p = true → ∃ c, m.get p = some c ∧ c.position = p) ∧
    (m.contains p = false → m.get p = none) := by
  constructor
  · intro hc
    obtain ⟨c, hcg⟩ := Minefield.wf_contains_get hwf hc
    exact ⟨c, hcg, Minefield.wf_get_position hwf hcg⟩
  · intro hc
    exact Minefield.get_none_of_not_contains hc

/-- C10, witness at a concrete field and coordinate. -/
theorem C10_witness :
    c10field.WF ∧
    ((c10field.contains ⟨0, 0⟩ = true →
        ∃ c, c10field.get ⟨0, 0⟩ = some c ∧ c.position = ⟨0, 0⟩) ∧
     (c10field.contains ⟨0, 0⟩ = false → c10field.get ⟨0, 0⟩ = none)) :=
  have hwf : c10field.WF :=
    mkMinefield_wf (rfl : mkMinefield 1 1 0 = .ok c10field)
  ⟨hwf, C10_get_total c10field ⟨0, 0⟩ hwf⟩

/-! ### Claim C5 -/

/-- C5: for every valid configuration and in-bounds coordinate `p`, after the
first `visit(p)` on the uninitialized field the cell at `p` has
`mine = False`: `_initialize` sets it to `False` first, `sample` draws only
from the remaining cells (hypothesis `hpicks`, which is what
`sample(self._uninitialized_cells, ...)` guarantees), and no later step of
the visit changes any `mine` field. -/
theorem C5_first_visit_safe {w h n : Int} {m0 : Minefield} (fuel : Nat)
    {picks : List Vector2D} {p : Vector2D} {c0 : Cell}
    {out : Minefield × Option MinesErr}
    (hmk : mkMinefield w h n = .ok m0)
    (hc : m0.get p = some c0)
    (hpicks : ∀ q ∈ picks, q ≠ p)
    (hrun : m0.visit fuel picks p = some out) :
    (out.1.get p).map Cell.mine = some (some false) := by
  have hres : m0.result = none := (mkMinefield_ok_parts hmk).2.2.2.2.2.2.2.1
  have hun : m0.unstarted = true := mkMinefield_unstarted hmk
  obtain ⟨hsm2, hsmmine, hsmres⟩ := Minefield.startMines_mine_at_start hc hpicks
  unfold Minefield.visit at hrun
  rw [hres] at hrun
  simp only at hrun
  rw [if_pos hun] at hrun
  rcases hsm : m0.startMines p picks with ⟨m3, e3⟩
  rw [hsm] at hrun hsm2 hsmmine
  simp only at hsm2 hsmmine
  cases e3 with
  | some e => simp at hsm2
  | none =>
  simp only at hrun
  obtain ⟨c3, hc3⟩ : ∃ c3, m3.get p = some c3 := by
    cases hg : m3.get p with
    | none => rw [hg] at hsmmine; simp at hsmmine
    | some c3 => exact ⟨c3, rfl⟩
  rw [hc3] at hrun
  simp only at hrun
  rcases hvc : m3.visitCell p with ⟨m4, og4⟩
  rw [hvc] at hrun
  have hm4mine : (m4.get p).map Cell.mine = some (some false) := by
    have hvcm := Minefield.visitCell_get_mine m3 p p
    rw [hvc] at hvcm
    simp only at hvcm
    rw [hvcm]
    exact hsmmine
  cases og4 with
  | some g =>
    simp only at hrun
    injection hrun with hrun'
    subst hrun'
    exact hm4mine
  | none =>
    simp only at hrun
    by_cases hrem : m4.remainingNeighboringMines p = 0
    · rw [if_pos hrem] at hrun
      unfold Minefield.visitNeighbors at hrun
      rcases hloop : Minefield.visitLoop fuel m4
          (((m4.unvisitedNeighbors p).map Cell.position).reverse)
        with _ | ⟨m5, og5⟩
      · rw [hloop] at hrun
        exact Option.noConfusion hrun
      · rw [hloop] at hrun
        simp only at hrun
        injection hrun with hrun'
        subst hrun'
        have hinv := (Minefield.visitLoop_invariants hloop).1 p
        show (m5.get p).map Cell.mine = some (some false)
        rw [hinv]
        exact hm4mine
    · rw [if_neg hrem] at hrun
      injection hrun with hrun'
      subst hrun'
      exact hm4mine

/-- C5, witness: a 2-by-2 field with one mine, first visit at the origin,
the sampled mine at the opposite corner. -/
theorem C5_witness :
    mkMinefield 2 2 1 = .ok c5field ∧
    c5field.get ⟨0, 0⟩ = some { position := ⟨0, 0⟩ } ∧
    (∀ q ∈ [(⟨1, 1⟩ : Vector2D)], q ≠ (⟨0, 0⟩ : Vector2D)) ∧
    ∃ out, c5field.visit 20 [⟨1, 1⟩] ⟨0, 0⟩ = some out ∧
      (out.1.get ⟨0, 0⟩).map Cell.mine = some (some false) := by
  refine ⟨rfl, rfl, by decide, ?_⟩
  rcases hrun : c5field.visit 20 [⟨1, 1⟩] ⟨0, 0⟩ with _ | out
  · exact absurd hrun (by decide)
  · exact ⟨out, rfl,
      C5_first_visit_safe 20 (rfl : mkMinefield 2 2 1 = .ok c5field)
        (rfl : c5field.get ⟨0, 0⟩ = some { position := ⟨0, 0⟩ })
        (by decide) hrun⟩

/-! ### Claim C4 -/

/-- C4, counterexample: on an initialized, non-terminal field (`c4run`'s
first component: `unstarted = false`, `result = none`) whose in-bounds cell
(2,0) is flagged and unrevealed, `visit ⟨2,0⟩` does NOT leave the field
unchanged: the cell (3,0) goes from unrevealed to revealed, because
`_remaining_neighboring_mines (2,0) = 0` (one neighbouring mine minus one
neighbouring flag) lets `_visit_neighbors` run even though the target cell
itself was never revealed. -/
theorem C4_counterexample :
    (c4run.map fun mm =>
      (mm.1.unstarted, mm.1.result,
       (mm.1.get ⟨2, 0⟩).map (fun c => (c.visited, c.flagged)),
       (mm.1.get ⟨3, 0⟩).map Cell.visited,
       (mm.2.get ⟨3, 0⟩).map Cell.visited))
      = some (false, none, some (false, true), some false, some true) := by
  rfl

/-- C4 (amended): on an initialized, non-terminal field, `visit` at an
in-bounds coordinate whose cell is already revealed or flagged never changes
that cell itself — in particular a flagged cell is never revealed (flags are
a hard gate on reveal) and stays flagged.  But the visit is not a field-wide
no-op: when the target's neighbouring-mine count minus neighbouring-flag
count is not positive, the neighbour cascade still runs and can reveal other
cells (see `C4_counterexample`). -/
theorem C4_target_cell_unchanged {m : Minefield} {p : Vector2D} {c : Cell}
    (fuel : Nat) (picks : List Vector2D) {out : Minefield × Option MinesErr}
    (hres : m.result = none) (hun : m.unstarted = false)
    (hc : m.get p = some c) (hvf : c.visited = true ∨ c.flagged = true)
    (hrun : m.visit fuel picks p = some out) :
    out.1.get p = m.get p := by
  have hvf' : (c.visited || c.flagged) = true := by
    rcases hvf with hv | hf
    · rw [hv]; rfl
    · rw [hf]; simp
  unfold Minefield.visit at hrun
  rw [hres] at hrun
  simp only at hrun
  rw [if_neg (by rw [hun]; exact Bool.false_ne_true)] at hrun
  simp only at hrun
  rw [hc] at hrun
  simp only at hrun
  rw [Minefield.visitCell_noop hc hvf'] at hrun
  simp only at hrun
  by_cases hrem : m.remainingNeighboringMines p = 0
  · rw [if_pos hrem] at hrun
    unfold Minefield.visitNeighbors at hrun
    rcases hloop : Minefield.visitLoop fuel m
        (((m.unvisitedNeighbors p).map Cell.position).reverse)
      with _ | ⟨m5, og5⟩
    · rw [hloop] at hrun
      exact Option.noConfusion hrun
    · rw [hloop] at hrun
      simp only at hrun
      injection hrun with hrun'
      subst hrun'
      have hfroz := (Minefield.visitLoop_invariants hloop).2.2.1 p
        (by rw [hc]; simp [hvf'])
      exact hfroz
  · rw [if_neg hrem] at hrun
    injection hrun with hrun'
    subst hrun'
    rfl

/-- C4, witness: re-visiting the already revealed cell (0,0) of a concrete
initialized, ongoing field leaves that cell unchanged. -/
theorem C4_witness :
    (c4wfield.result = none ∧ c4wfield.unstarted = false ∧
      c4wfield.get ⟨0, 0⟩ = some c4wcell ∧
      (c4wcell.visited = true ∨ c4wcell.flagged = true)) ∧
    ∃ out, c4wfield.visit 10 [] ⟨0, 0⟩ = some out ∧
      out.1.get ⟨0, 0⟩ = c4wfield.get ⟨0, 0⟩ := by
  refine ⟨⟨by decide, by decide, by decide, Or.inl (by decide)⟩, ?_⟩
  rcases hrun : c4wfield.visit 10 [] ⟨0, 0⟩ with _ | out
  · exact absurd hrun (by decide)
  · exact ⟨out, rfl,
      C4_target_cell_unchanged 10 [] (by decide) (by decide)
        (by decide : c4wfield.get ⟨0, 0⟩ = some c4wcell)
        (Or.inl (by decide)) hrun⟩

/-! ### Claim C6 -/

/-- C6, counterexample: `c6field` has the terminal outcome `WON`, yet
`toggle_flag (1,0)` does not fail at all (so in particular not with
`GameAlreadyOver`) and mutates the field: the flag on (1,0) flips from
`False` to `True`.  The source's `toggle_flag` never checks `self._result`. -/
theorem C6_counterexample :
    c6field.result = some .WON ∧
    (c6field.toggleFlag ⟨1, 0⟩).2 = none ∧
    (c6field.get ⟨1, 0⟩).map Cell.flagged = some false ∧
    (((c6field.toggleFlag ⟨1, 0⟩).1).get ⟨1, 0⟩).map Cell.flagged = some true := by
  refine ⟨by decide, by decide, by decide, by decide⟩

/-- C6 (amended): `toggle_flag` performs no game-over check: after a terminal
outcome it still succeeds on an in-bounds coordinate, flipping the flag of an
unrevealed cell exactly as before the game ended (the stored outcome itself
is untouched); only out-of-bounds coordinates fail, with `IndexError`. -/
theorem C6_toggleFlag_ignores_result (m : Minefield) (p : Vector2D)
    (g : GameOver) {c : Cell} (hres : m.result = some g)
    (hc : m.get p = some c) (hv : c.visited = false) :
    (m.toggleFlag p).2 = none ∧
    (m.toggleFlag p).1.result = some g ∧
    ((m.toggleFlag p).1.get p).map Cell.flagged = some (!c.flagged) := by
  unfold Minefield.toggleFlag
  rw [hc]
  simp only
  refine ⟨trivial, ?_, ?_⟩
  · rw [Minefield.result_setCell]
    exact hres
  · rw [Minefield.get_setCell_self hc]
    unfold Cell.toggleFlag
    rw [hv]
    simp

/-- C6, witness: toggling the flag of the unrevealed mine cell of the
concrete won field `c6field`. -/
theorem C6_witness :
    (c6field.result = some .WON ∧ c6field.get ⟨1, 0⟩ = some c6cell ∧
      c6cell.visited = false) ∧
    ((c6field.toggleFlag ⟨1, 0⟩).2 = none ∧
     (c6field.toggleFlag ⟨1, 0⟩).1.result = some .WON ∧
     ((c6field.toggleFlag ⟨1, 0⟩).1.get ⟨1, 0⟩).map Cell.flagged
        = some (!c6cell.flagged)) :=
  ⟨⟨by decide, by decide, by decide⟩,
   C6_toggleFlag_ignores_result c6field ⟨1, 0⟩ .WON (by decide)
     (by decide : c6field.get ⟨1, 0⟩ = some c6cell) (by decide)⟩

/-! ### Claim C3 -/

theorem c3_step1 (k : Nat) :
    Minefield.visitLoop (k + 1) c3cyc [⟨1, 0⟩]
      = Minefield.visitLoop k c3cyc [⟨2, 0⟩] := rfl

theorem c3_step2 (k : Nat) :
    Minefield.visitLoop (k + 1) c3cyc [⟨2, 0⟩]
      = Minefield.visitLoop k c3cyc [⟨1, 0⟩] := rfl

theorem c3_cycle (n : Nat) :
    Minefield.visitLoop n c3cyc [⟨1, 0⟩] = none ∧
    Minefield.visitLoop n c3cyc [⟨2, 0⟩] = none := by
  induction n with
  | zero => exact ⟨rfl, rfl⟩
  | succ k ih => exact ⟨(c3_step1 k).trans ih.2, (c3_step2 k).trans ih.1⟩

theorem c3_first_steps (k : Nat) :
    Minefield.visitLoop (k + 3) c3mid [⟨1, 0⟩]
      = Minefield.visitLoop k c3cyc [⟨1, 0⟩] := rfl

theorem c3_visit_unfold (n : Nat) :
    c3field.visit n [⟨4, 0⟩] ⟨0, 0⟩ =
      match Minefield.visitLoop n c3mid [⟨1, 0⟩] with
      | none => none
      | some (m3, og) => some (m3, og.map MinesErr.gameOver) := rfl

/-- C3: the claim that the flood-fill work-set loop always terminates (each
cell entering the work set at most once, also with flagged cells) is the
intended behaviour, but the code violates it: on the 5-by-1 field `c3field`
(flags on the zero-neighbouring-mine cells (1,0) and (2,0)), visiting (0,0)
with the mine sampled at (4,0) never returns, for every iteration bound
`n` — `_unvisited_neighbors` keeps re-enqueueing the two flagged cells,
which `_visit_cell` never visits, so the work set alternates between
`[(1,0)]` and `[(2,0)]` forever and the Python process hangs.  The last
three conjuncts show the run is a perfectly ordinary one: an uninitialized,
non-terminal field visited at an in-bounds coordinate. -/
theorem C3_cascade_diverges :
    (∀ n, c3field.visit n [⟨4, 0⟩] ⟨0, 0⟩ = none) ∧
    c3field.unstarted = true ∧ c3field.result = none ∧
    c3field.contains ⟨0, 0⟩ = true := by
  refine ⟨?_, by decide, by decide, by decide⟩
  intro n
  rw [c3_visit_unfold]
  have hloop : ∀ k, Minefield.visitLoop k c3mid [⟨1, 0⟩] = none := by
    intro k
    match k with
    | 0 => rfl
    | 1 => rfl
    | 2 => rfl
    | (j + 3) => rw [c3_first_steps]; exact (c3_cycle j).1
  rw [hloop n]

/-! ### Preservation lemmas for the operations -/

theorem Minefield.WF_of_grid_eq {m1 m2 : Minefield} (h : m1.grid = m2.grid)
    (hwf : m1.WF) : m2.WF := by
  unfold Minefield.WF at hwf ⊢
  rw [← h]
  exact hwf

theorem Minefield.cells_grid_map (m : Minefield) (f : Cell → Cell) :
    ({ m with grid := m.grid.map fun row => row.map f } : Minefield).cells
      = m.cells.map f := by
  unfold Minefield.cells
  simp only
  exact (List.map_flatten f m.grid).symm

theorem Minefield.wf_grid_map (m : Minefield) (f : Cell → Cell)
    (hf : ∀ c, (f c).position = c.position) (hwf : m.WF) :
    ({ m with grid := m.grid.map fun row => row.map f } : Minefield).WF := by
  obtain ⟨h1, h2, h3⟩ := hwf
  have hhead : (((m.grid.map fun row => row.map f)).headD []).length
      = (m.grid.headD []).length := by
    cases m.grid <;> simp
  refine ⟨by simpa using h1, ?_, ?_⟩
  · intro row hrow
    simp only at hrow
    obtain ⟨row0, hrow0, hmap⟩ := List.mem_map.mp hrow
    rw [hhead, ← hmap]
    simpa using h2 row0 hrow0
  · intro y x row c hrow hcell
    simp only at hrow
    rw [List.get?_map] at hrow
    cases hrow0 : m.grid.get? y with
    | none => rw [hrow0] at hrow; exact Option.noConfusion hrow
    | some row0 =>
      rw [hrow0] at hrow
      injection hrow with hrow'
      rw [← hrow'] at hcell
      rw [List.get?_map] at hcell
      cases hcell0 : row0.get? x with
      | none => rw [hcell0] at hcell; exact Option.noConfusion hcell
      | some c0 =>
        rw [hcell0] at hcell
        injection hcell with hcell'
        rw [← hcell', hf c0]
        exact h3 _ _ _ _ hrow0 hcell0

theorem Minefield.toggleFlag_result (m : Minefield) (p : Vector2D) :
    (m.toggleFlag p).1.result = m.result := by
  unfold Minefield.toggleFlag
  cases hq : m.get p with
  | none => rfl
  | some c => simp

theorem Minefield.toggleFlag_mines (m : Minefield) (p : Vector2D) :
    (m.toggleFlag p).1.mines = m.mines := by
  unfold Minefield.toggleFlag
  cases hq : m.get p with
  | none => rfl
  | some c => simp

theorem Minefield.toggleFlag_all (m : Minefield) (p : Vector2D) (P : Cell → Bool)
    (hP : ∀ c, P c.toggleFlag = P c) :
    (m.toggleFlag p).1.cells.all P = m.cells.all P := by
  unfold Minefield.toggleFlag
  cases hq : m.get p with
  | none => rfl
  | some c => exact Minefield.cells_all_setCell hq _ _ (hP c)

theorem Minefield.toggleFlag_cells_length (m : Minefield) (p : Vector2D) :
    (m.toggleFlag p).1.cells.length = m.cells.length := by
  unfold Minefield.toggleFlag
  cases hq : m.get p with
  | none => rfl
  | some c => exact Minefield.cells_length_setCell hq _

theorem Cell.toggleFlag_position (c : Cell) : c.toggleFlag.position = c.position := by
  unfold Cell.toggleFlag
  split_ifs <;> rfl

theorem Minefield.toggleFlag_wf (m : Minefield) (p : Vector2D) (hwf : m.WF) :
    (m.toggleFlag p).1.WF := by
  unfold Minefield.toggleFlag
  cases hq : m.get p with
  | none => exact hwf
  | some c =>
    exact Minefield.wf_setCell hwf hq (Cell.toggleFlag_position c)

theorem Minefield.pickFold_mines (picks : List Vector2D) (acc : Minefield) :
    (picks.foldl (fun acc q => match acc.get q with
      | some cq => acc.setCell q { cq with mine := some true }
      | none => acc) acc).mines = acc.mines := by
  induction picks generalizing acc with
  | nil => rfl
  | cons q rest ih =>
    rw [List.foldl_cons, ih]
    cases hq : acc.get q <;> simp

theorem Minefield.pickFold_cells_length (picks : List Vector2D) (acc : Minefield) :
    (picks.foldl (fun acc q => match acc.get q with
      | some cq => acc.setCell q { cq with mine := some true }
      | none => acc) acc).cells.length = acc.cells.length := by
  induction picks generalizing acc with
  | nil => rfl
  | cons q rest ih =>
    rw [List.foldl_cons, ih]
    cases hq : acc.get q with
    | none => rfl
    | some cq => exact Minefield.cells_length_setCell hq _

theorem Minefield.pickFold_all (picks : List Vector2D) (acc : Minefield)
    (P : Cell → Bool) (hP : ∀ c, P { c with mine := some true } = P c) :
    (picks.foldl (fun acc q => match acc.get q with
      | some cq => acc.setCell q { cq with mine := some true }
      | none => acc) acc).cells.all P = acc.cells.all P := by
  induction picks generalizing acc with
  | nil => rfl
  | cons q rest ih =>
    rw [List.foldl_cons, ih]
    cases hq : acc.get q with
    | none => rfl
    | some cq => exact Minefield.cells_all_setCell hq _ _ (hP cq)

theorem Minefield.pickFold_wf (picks : List Vector2D) (acc : Minefield)
    (hwf : acc.WF) :
    (picks.foldl (fun acc q => match acc.get q with
      | some cq => acc.setCell q { cq with mine := some true }
      | none => acc) acc).WF := by
  induction picks generalizing acc with
  | nil => exact hwf
  | cons q rest ih =>
    rw [List.foldl_cons]
    refine ih _ ?_
    cases hq : acc.get q with
    | none => exact hwf
    | some cq => exact Minefield.wf_setCell hwf hq rfl


/-- Each step of the sampling fold raises the number of `mine = True` cells
by at most one. -/
theorem Minefield.pickFold_mine_count (picks : List Vector2D) (acc : Minefield) :
    (picks.foldl (fun acc q => match acc.get q with
      | some cq => acc.setCell q { cq with mine := some true }
      | none => acc) acc).cells.countP (fun c => decide (c.mine = some true))
      ≤ acc.cells.countP (fun c => decide (c.mine = some true)) + picks.length := by
  induction picks generalizing acc with
  | nil => simp
  | cons q rest ih =>
    rw [List.foldl_cons]
    refine le_trans (ih _) ?_
    have hstep : ((match acc.get q with
        | some cq => acc.setCell q { cq with mine := some true }
        | none => acc : Minefield)).cells.countP (fun c => decide (c.mine = some true))
        ≤ acc.cells.countP (fun c => decide (c.mine = some true)) + 1 := by
      cases hq : acc.get q with
      | none => simp
      | some cq =>
        have hcnt := Minefield.cells_countP_setCell hq { cq with mine := some true }
          (fun c => decide (c.mine = some true))
        simp only at hcnt ⊢
        simp at hcnt
        split_ifs at hcnt <;> omega
    simp only [List.length_cons]
    omega

/-- The full effect of a successful `_initialize` needed by the invariant:
no error, every cell resolved, nothing else touched, the mine count bounded
by the number of picks, and well-formedness preserved. -/
theorem Minefield.startMines_parts {m : Minefield} {s : Vector2D} {c : Cell}
    (picks : List Vector2D) (hc : m.get s = some c) :
    (m.startMines s picks).2 = none ∧
    (m.startMines s picks).1.result = m.result ∧
    (m.startMines s picks).1.mines = m.mines ∧
    (m.startMines s picks).1.cells.length = m.cells.length ∧
    (∀ d ∈ (m.startMines s picks).1.cells, d.mine ≠ none) ∧
    (m.WF → (m.startMines s picks).1.WF) ∧
    (∀ P : Cell → Bool,
      (∀ d, P { d with mine := some true } = P d) →
      (∀ d, P { d with mine := some false } = P d) →
      (m.startMines s picks).1.cells.all P = m.cells.all P) ∧
    ((m.startMines s picks).1.cells.countP (fun d => decide (d.mine = some true))
      ≤ m.cells.countP (fun d => decide (d.mine = some true)) + picks.length) := by
  unfold Minefield.startMines
  rw [hc]
  simp only
  refine ⟨trivial, ?_, ?_, ?_, ?_, ?_, ?_, ?_⟩
  · show (Minefield.result _) = m.result
    have h1 : ∀ (mm : Minefield) (g : List (List Cell)),
        ({ mm with grid := g } : Minefield).result = mm.result := fun _ _ => rfl
    rw [h1, Minefield.pickFold_result]
    rfl
  · show (Minefield.mines _) = m.mines
    have h1 : ∀ (mm : Minefield) (g : List (List Cell)),
        ({ mm with grid := g } : Minefield).mines = mm.mines := fun _ _ => rfl
    rw [h1, Minefield.pickFold_mines]
    rfl
  · rw [Minefield.cells_grid_map, List.length_map, Minefield.pickFold_cells_length,
      Minefield.cells_length_setCell hc]
  · intro d hd
    rw [Minefield.cells_grid_map] at hd
    obtain ⟨d0, -, hd0⟩ := List.mem_map.mp hd
    by_cases hnone : d0.mine = none
    · rw [← hd0, if_pos hnone]
      simp
    · rw [← hd0, if_neg hnone]
      exact hnone
  · intro hwf
    refine Minefield.wf_grid_map _ _ ?_
      (Minefield.pickFold_wf _ _ (Minefield.wf_setCell hwf hc rfl))
    intro d
    split_ifs <;> rfl
  · intro P hP1 hP2
    rw [Minefield.cells_grid_map]
    have hmapped : ∀ l : List Cell,
        (l.map (fun d => if d.mine = none then { d with mine := some false }
          else d)).all P = l.all P := by
      intro l
      induction l with
      | nil => rfl
      | cons d rest ihl =>
        simp only [List.map_cons, List.all_cons, ihl]
        by_cases hnone : d.mine = none
        · rw [if_pos hnone, hP2 d]
        · rw [if_neg hnone]
    rw [hmapped, Minefield.pickFold_all _ _ _ hP1,
      Minefield.cells_all_setCell hc _ _ (hP2 c)]
  · rw [Minefield.cells_grid_map]
    have hcount : ∀ l : List Cell,
        (l.map (fun d => if d.mine = none then { d with mine := some false }
          else d)).countP (fun d => decide (d.mine = some true))
        = l.countP (fun d => decide (d.mine = some true)) := by
      intro l
      induction l with
      | nil => rfl
      | cons d rest ihl =>
        simp only [List.map_cons, List.countP_cons, ihl]
        by_cases hnone : d.mine = none
        · simp [hnone]
        · simp [hnone]
    rw [hcount]
    refine le_trans (Minefield.pickFold_mine_count _ _) ?_
    have hm1 := Minefield.cells_countP_setCell hc { c with mine := some false }
      (fun d => decide (d.mine = some true))
    simp at hm1
    split_ifs at hm1 <;> omega

theorem Minefield.cells_of_grid_eq {m1 m2 : Minefield} (h : m1.grid = m2.grid) :
    m1.cells = m2.cells := by
  unfold Minefield.cells
  rw [h]

theorem Minefield.visitCell_mines (m : Minefield) (q : Vector2D) :
    (m.visitCell q).1.mines = m.mines := by
  unfold Minefield.visitCell
  cases hg : m.get q with
  | none => rfl
  | some c =>
    simp only
    by_cases hvf : (c.visited || c.flagged) = true
    · rw [if_pos hvf]
    · rw [if_neg hvf]
      split_ifs <;> simp

theorem Minefield.visitCell_wf (m : Minefield) (q : Vector2D) (hwf : m.WF) :
    (m.visitCell q).1.WF := by
  rcases Minefield.visitCell_grid m q with hgr | ⟨c, hg, hv, hf, hgr⟩
  · exact Minefield.WF_of_grid_eq hgr.symm hwf
  · exact Minefield.WF_of_grid_eq hgr.symm (Minefield.wf_setCell hwf hg rfl)

theorem Minefield.visitCell_all (m : Minefield) (q : Vector2D) (P : Cell → Bool)
    (hP : ∀ c, P { c with visited := true } = P c) :
    (m.visitCell q).1.cells.all P = m.cells.all P := by
  rcases Minefield.visitCell_grid m q with hgr | ⟨c, hg, hv, hf, hgr⟩
  · rw [Minefield.cells_of_grid_eq hgr]
  · rw [Minefield.cells_of_grid_eq hgr]
    exact Minefield.cells_all_setCell hg _ _ (hP c)

theorem Minefield.visitCell_cells_length (m : Minefield) (q : Vector2D) :
    (m.visitCell q).1.cells.length = m.cells.length := by
  rcases Minefield.visitCell_grid m q with hgr | ⟨c, hg, hv, hf, hgr⟩
  · rw [Minefield.cells_of_grid_eq hgr]
  · rw [Minefield.cells_of_grid_eq hgr]
    exact Minefield.cells_length_setCell hg _

/-- What `_visit_cell` does to the result and the win predicate, starting
from a no-result, not-yet-won state: it returns nothing and changes neither,
or it raises `WON` exactly as the win predicate becomes true, or it raises
`LOST` with the win predicate still false. -/
theorem Minefield.visitCell_tri (m : Minefield) (q : Vector2D)
    (hres : m.result = none) (hwin : m.winPred = false) :
    ((m.visitCell q).2 = none ∧ (m.visitCell q).1.result = none ∧
        (m.visitCell q).1.winPred = false) ∨
    ((m.visitCell q).2 = some .WON ∧ (m.visitCell q).1.result = some .WON ∧
        (m.visitCell q).1.winPred = true) ∨
    ((m.visitCell q).2 = some .LOST ∧ (m.visitCell q).1.result = some .LOST ∧
        (m.visitCell q).1.winPred = false) := by
  unfold Minefield.winPred at hwin
  unfold Minefield.visitCell
  cases hg : m.get q with
  | none => exact Or.inl ⟨rfl, hres, by unfold Minefield.winPred; exact hwin⟩
  | some c =>
    simp only
    by_cases hvf : (c.visited || c.flagged) = true
    · rw [if_pos hvf]
      exact Or.inl ⟨rfl, hres, by unfold Minefield.winPred; exact hwin⟩
    · rw [if_neg hvf]
      by_cases hmine : c.mine = some true
      · rw [if_pos hmine]
        refine Or.inr (Or.inr ⟨rfl, rfl, ?_⟩)
        show (Minefield.winPred _) = false
        unfold Minefield.winPred
        have hcells : ({ m.setCell q { c with visited := true } with
            result := some GameOver.LOST } : Minefield).cells
            = (m.setCell q { c with visited := true }).cells := rfl
        rw [hcells, Minefield.cells_all_setCell hg _ _ (by simp [hmine])]
        exact hwin
      · rw [if_neg hmine]
        by_cases hwp : (m.setCell q { c with visited := true }).winPred = true
        · rw [if_pos hwp]
          exact Or.inr (Or.inl ⟨rfl, rfl, hwp⟩)
        · rw [if_neg hwp]
          refine Or.inl ⟨rfl, ?_, ?_⟩
          · rw [Minefield.result_setCell]
            exact hres
          · revert hwp
            cases (m.setCell q { c with visited := true }).winPred <;> simp

theorem Minefield.visitLoop_preserves {fuel : Nat} {m m' : Minefield}
    {stack : List Vector2D} {og : Option GameOver}
    (h : Minefield.visitLoop fuel m stack = some (m', og)) :
    (m.WF → m'.WF) ∧ (m'.mines = m.mines) ∧
    (m'.cells.length = m.cells.length) ∧
    (∀ P : Cell → Bool, (∀ c, P { c with visited := true } = P c) →
      m'.cells.all P = m.cells.all P) := by
  induction fuel generalizing m stack with
  | zero =>
    cases stack with
    | nil =>
      simp only [Minefield.visitLoop] at h
      injection h with h'
      injection h' with h1 h2
      subst h1
      exact ⟨id, rfl, rfl, fun _ _ => rfl⟩
    | cons q rest =>
      simp only [Minefield.visitLoop] at h
      exact Option.noConfusion h
  | succ fuel ih =>
    cases stack with
    | nil =>
      simp only [Minefield.visitLoop] at h
      injection h with h'
      injection h' with h1 h2
      subst h1
      exact ⟨id, rfl, rfl, fun _ _ => rfl⟩
    | cons q rest =>
      simp only [Minefield.visitLoop] at h
      rcases hvc : m.visitCell q with ⟨m1, og1⟩
      rw [hvc] at h
      have hwf1 : m.WF → m1.WF := by
        intro hwf
        have := Minefield.visitCell_wf m q hwf
        rw [hvc] at this
        exact this
      have hmines1 : m1.mines = m.mines := by
        have := Minefield.visitCell_mines m q
        rw [hvc] at this
        exact this
      have hlen1 : m1.cells.length = m.cells.length := by
        have := Minefield.visitCell_cells_length m q
        rw [hvc] at this
        exact this
      have hall1 : ∀ P : Cell → Bool, (∀ c, P { c with visited := true } = P c) →
          m1.cells.all P = m.cells.all P := by
        intro P hP
        have := Minefield.visitCell_all m q P hP
        rw [hvc] at this
        exact this
      cases og1 with
      | some g =>
        simp only at h
        injection h with h'
        injection h' with h1 h2
        subst h1
        exact ⟨hwf1, hmines1, hlen1, hall1⟩
      | none =>
        simp only at h
        have hnext : ∃ stack', Minefield.visitLoop fuel m1 stack' = some (m', og) := by
          by_cases hz : m1.neighboringMines q = 0
          · rw [if_pos hz] at h
            exact ⟨_, h⟩
          · rw [if_neg hz] at h
            exact ⟨_, h⟩
        obtain ⟨stack', h'⟩ := hnext
        obtain ⟨ih1, ih2, ih3, ih4⟩ := ih h'
        exact ⟨fun hwf => ih1 (hwf1 hwf), ih2.trans hmines1, ih3.trans hlen1,
          fun P hP => (ih4 P hP).trans (hall1 P hP)⟩

theorem Minefield.visitLoop_result {fuel : Nat} {m m' : Minefield}
    {stack : List Vector2D} {og : Option GameOver}
    (h : Minefield.visitLoop fuel m stack = some (m', og))
    (hres : m.result = none) (hwin : m.winPred = false) :
    (og = none ∧ m'.result = none ∧ m'.winPred = false) ∨
    (og = some .WON ∧ m'.result = some .WON ∧ m'.winPred = true) ∨
    (og = some .LOST ∧ m'.result = some .LOST ∧ m'.winPred = false) := by
  induction fuel generalizing m stack with
  | zero =>
    cases stack with
    | nil =>
      simp only [Minefield.visitLoop] at h
      injection h with h'
      injection h' with h1 h2
      subst h1
      exact Or.inl ⟨h2.symm, hres, hwin⟩
    | cons q rest =>
      simp only [Minefield.visitLoop] at h
      exact Option.noConfusion h
  | succ fuel ih =>
    cases stack with
    | nil =>
      simp only [Minefield.visitLoop] at h
      injection h with h'
      injection h' with h1 h2
      subst h1
      exact Or.inl ⟨h2.symm, hres, hwin⟩
    | cons q rest =>
      simp only [Minefield.visitLoop] at h
      rcases hvc : m.visitCell q with ⟨m1, og1⟩
      rw [hvc] at h
      have htri := Minefield.visitCell_tri m q hres hwin
      rw [hvc] at htri
      simp only at htri
      rcases htri with ⟨h1, h2, h3⟩ | ⟨h1, h2, h3⟩ | ⟨h1, h2, h3⟩
      · subst h1
        simp only at h
        have hnext : ∃ stack', Minefield.visitLoop fuel m1 stack' = some (m', og) := by
          by_cases hz : m1.neighboringMines q = 0
          · rw [if_pos hz] at h
            exact ⟨_, h⟩
          · rw [if_neg hz] at h
            exact ⟨_, h⟩
        obtain ⟨stack', h'⟩ := hnext
        exact ih h' h2 h3
      · subst h1
        simp only at h
        injection h with h'
        injection h' with ha hb
        subst ha
        exact Or.inr (Or.inl ⟨hb.symm, h2, h3⟩)
      · subst h1
        simp only at h
        injection h with h'
        injection h' with ha hb
        subst ha
        exact Or.inr (Or.inr ⟨hb.symm, h2, h3⟩)

/-! ### Assembling the game invariant -/

theorem cells_prop_of_all_eq {m1 m2 : Minefield} {P : Cell → Bool}
    (hall : m2.cells.all P = m1.cells.all P)
    (h : ∀ c ∈ m1.cells, P c = true) : ∀ c ∈ m2.cells, P c = true := by
  have h2 : m2.cells.all P = true := by
    rw [hall]
    exact List.all_eq_true.mpr h
  exact List.all_eq_true.mp h2

theorem Minefield.unstarted_transfer {m1 m2 : Minefield}
    (hall : m2.cells.all (fun c => decide (c.mine = none))
      = m1.cells.all (fun c => decide (c.mine = none))) :
    m2.unstarted = m1.unstarted := by
  unfold Minefield.unstarted
  exact hall

theorem Minefield.resolved_transfer {m1 m2 : Minefield}
    (hall : m2.cells.all (fun c => !decide (c.mine = none))
      = m1.cells.all (fun c => !decide (c.mine = none)))
    (h : ∀ c ∈ m1.cells, c.mine ≠ none) : ∀ c ∈ m2.cells, c.mine ≠ none := by
  have h2 := cells_prop_of_all_eq hall (fun c hc => by simp [h c hc])
  intro c hc
  have h3 := h2 c hc
  simpa using h3

theorem Minefield.unstarted_eq_false_of_resolved {m : Minefield}
    (hne : m.cells ≠ []) (h : ∀ c ∈ m.cells, c.mine ≠ none) :
    m.unstarted = false := by
  cases hcells : m.cells with
  | nil => exact absurd hcells hne
  | cons c rest =>
    unfold Minefield.unstarted
    rw [hcells]
    simp only [List.all_cons]
    have hcmem : c ∈ m.cells := by
      rw [hcells]
      exact List.mem_cons_self c rest
    have := h c hcmem
    simp [this]

theorem Minefield.winPred_false_of_cell {m : Minefield} {c : Cell}
    (hc : c ∈ m.cells) (hm : ¬(c.mine = some true)) (hv : c.visited = false) :
    m.winPred = false := by
  unfold Minefield.winPred
  cases hall : m.cells.all (fun d => decide (d.mine = some true) || d.visited) with
  | false => rfl
  | true =>
    have := List.all_eq_true.mp hall c hc
    simp [hm, hv] at this

theorem Minefield.exists_not_mine_cell {m : Minefield}
    (hcount : m.cells.countP (fun d => decide (d.mine = some true))
      < m.cells.length) :
    ∃ c ∈ m.cells, ¬(c.mine = some true) := by
  by_contra hcon
  push_neg at hcon
  have hall : ∀ c ∈ m.cells, (fun d => decide (d.mine = some true)) c = true :=
    fun c hc => by simp [hcon c hc]
  rw [List.countP_eq_length.mpr hall] at hcount
  omega

theorem GameInv_of_facts {m : Minefield} (hwf : m.WF)
    (hb : 0 ≤ m.mines ∧ m.mines < (m.cells.length : Int))
    (hu : m.unstarted = false) (hresolved : ∀ c ∈ m.cells, c.mine ≠ none)
    (hiff : m.result = some .WON ↔ m.winPred = true) : GameInv m := by
  refine ⟨hwf, hb, ?_, fun _ => hresolved, ?_⟩
  · intro h
    rw [hu] at h
    exact Bool.noConfusion h
  · rw [hu]
    simpa using hiff

theorem iff_of_tri {m : Minefield}
    (h : (m.result = none ∧ m.winPred = false) ∨
      (m.result = some .WON ∧ m.winPred = true) ∨
      (m.result = some .LOST ∧ m.winPred = false)) :
    m.result = some .WON ↔ m.winPred = true := by
  rcases h with ⟨h1, h2⟩ | ⟨h1, h2⟩ | ⟨h1, h2⟩ <;> rw [h1, h2] <;> simp

/-- A completed `visit` call (made with a sample that `random.sample` could
actually return) preserves the game invariant. -/
theorem Minefield.visit_GameInv {m : Minefield} {fuel : Nat}
    {picks : List Vector2D} {p : Vector2D} {m' : Minefield} {e : Option MinesErr}
    (hrun : m.visit fuel picks p = some (m', e))
    (hs : ValidSample m p picks) (hinv : GameInv m) : GameInv m' := by
  obtain ⟨hwf, hbounds, hun3, hun4, hwiniff⟩ := hinv
  cases hres : m.result with
  | some g =>
    unfold Minefield.visit at hrun
    rw [hres] at hrun
    simp only at hrun
    injection hrun with hrun'
    injection hrun' with h1 h2
    subst h1
    exact ⟨hwf, hbounds, hun3, hun4, hwiniff⟩
  | none =>
    unfold Minefield.visit at hrun
    rw [hres] at hrun
    simp only at hrun
    rcases hini : (if m.unstarted = true then m.startMines p picks else (m, none))
      with ⟨m1, e1⟩
    rw [hini] at hrun
    cases e1 with
    | some err =>
      simp only at hrun
      injection hrun with hrun'
      injection hrun' with h1 h2
      subst h1
      have hm1 : m1 = m := by
        by_cases hu : m.unstarted = true
        · rw [if_pos hu] at hini
          cases hgp : m.get p with
          | none =>
            unfold Minefield.startMines at hini
            rw [hgp] at hini
            exact (congrArg Prod.fst hini).symm
          | some c =>
            have hp1 := (Minefield.startMines_parts picks hgp).1
            rw [hini] at hp1
            exact Option.noConfusion hp1
        · rw [if_neg hu] at hini
          exact (congrArg Prod.fst hini).symm
      subst hm1
      exact ⟨hwf, hbounds, hun3, hun4, hwiniff⟩
    | none =>
      simp only at hrun
      have hM1 : m1.WF ∧ (0 ≤ m1.mines ∧ m1.mines < (m1.cells.length : Int)) ∧
          m1.result = none ∧ (∀ c ∈ m1.cells, c.mine ≠ none) ∧
          m1.winPred = false ∧ m1.unstarted = false := by
        by_cases hu : m.unstarted = true
        · rw [if_pos hu] at hini
          cases hgp : m.get p with
          | none =>
            unfold Minefield.startMines at hini
            rw [hgp] at hini
            exact Option.noConfusion (congrArg Prod.snd hini)
          | some c =>
            have hparts := Minefield.startMines_parts picks hgp
            rw [hini] at hparts
            simp only at hparts
            obtain ⟨-, hp2, hp3, hp4, hp5, hp6, hp7, hp8⟩ := hparts
            have hcont : m.contains p = true := (Minefield.get_some_parts hgp).1
            obtain ⟨hnd, hlenp, hmem⟩ := hs hu hcont
            have hcount0 : m.cells.countP (fun d => decide (d.mine = some true)) = 0 := by
              rw [List.countP_eq_zero]
              intro d hd
              have hdnone : d.mine = none := by
                have hallnone := hu
                unfold Minefield.unstarted at hallnone
                have := List.all_eq_true.mp hallnone d hd
                simpa using this
              simp [hdnone]
            have hcount1 : m1.cells.countP (fun d => decide (d.mine = some true))
                < m1.cells.length := by
              omega
            have hunv1 : ∀ c ∈ m1.cells, c.visited = false := by
              have hall := hp7 (fun d => !d.visited) (fun d => rfl) (fun d => rfl)
              have h2 := cells_prop_of_all_eq hall
                (fun c hc => by simp [(hun3 hu).2 c hc])
              intro c hc
              have h3 := h2 c hc
              simpa using h3
            have hlen0 : 0 < m1.cells.length := by omega
            have hne : m1.cells ≠ [] := by
              intro hnil
              rw [hnil] at hlen0
              simp at hlen0
            obtain ⟨c1, hc1mem, hc1⟩ := Minefield.exists_not_mine_cell hcount1
            refine ⟨hp6 hwf, by omega, ?_, hp5, ?_, ?_⟩
            · rw [hp2]
              exact hres
            · exact Minefield.winPred_false_of_cell hc1mem hc1 (hunv1 c1 hc1mem)
            · exact Minefield.unstarted_eq_false_of_resolved hne hp5
        · rw [if_neg hu] at hini
          have hm1 : m1 = m := (congrArg Prod.fst hini).symm
          subst hm1
          have hu' : m1.unstarted = false := by
            revert hu
            cases m1.unstarted <;> simp
          have hwp : m1.winPred = false := by
            cases hwpc : m1.winPred with
            | false => rfl
            | true =>
              have hww := hwiniff.mpr ⟨hu', hwpc⟩
              rw [hres] at hww
              exact Option.noConfusion hww
          exact ⟨hwf, hbounds, hres, hun4 hu', hwp, hu'⟩
      obtain ⟨hwf1, hb1, hres1, hresolved1, hwin1, hu1⟩ := hM1
      cases hgp1 : m1.get p with
      | none =>
        rw [hgp1] at hrun
        simp only at hrun
        injection hrun with hrun'
        injection hrun' with h1 h2
        subst h1
        exact GameInv_of_facts hwf1 hb1 hu1 hresolved1
          (iff_of_tri (Or.inl ⟨hres1, hwin1⟩))
      | some capp =>
        rw [hgp1] at hrun
        simp only at hrun
        rcases hvc : m1.visitCell p with ⟨m2, og2⟩
        rw [hvc] at hrun
        have htri := Minefield.visitCell_tri m1 p hres1 hwin1
        rw [hvc] at htri
        simp only at htri
        have hwf2 : m2.WF := by
          have hh := Minefield.visitCell_wf m1 p hwf1
          rw [hvc] at hh
          exact hh
        have hmines2 : m2.mines = m1.mines := by
          have hh := Minefield.visitCell_mines m1 p
          rw [hvc] at hh
          exact hh
        have hlen2 : m2.cells.length = m1.cells.length := by
          have hh := Minefield.visitCell_cells_length m1 p
          rw [hvc] at hh
          exact hh
        have hall2 : ∀ P : Cell → Bool, (∀ c, P { c with visited := true } = P c) →
            m2.cells.all P = m1.cells.all P := by
          intro P hP
          have hh := Minefield.visitCell_all m1 p P hP
          rw [hvc] at hh
          exact hh
        have hb2 : 0 ≤ m2.mines ∧ m2.mines < (m2.cells.length : Int) := by
          rw [hmines2, hlen2]
          exact hb1
        have hu2 : m2.unstarted = false := by
          rw [Minefield.unstarted_transfer (hall2 _ (fun c => rfl))]
          exact hu1
        have hresolved2 : ∀ c ∈ m2.cells, c.mine ≠ none :=
          Minefield.resolved_transfer (hall2 _ (fun c => rfl)) hresolved1
        cases og2 with
        | some g =>
          simp only at hrun
          injection hrun with hrun'
          injection hrun' with h1 h2
          subst h1
          refine GameInv_of_facts hwf2 hb2 hu2 hresolved2 (iff_of_tri ?_)
          rcases htri with ⟨ht1, -, -⟩ | ⟨-, ht2, ht3⟩ | ⟨-, ht2, ht3⟩
          · exact Option.noConfusion ht1
          · exact Or.inr (Or.inl ⟨ht2, ht3⟩)
          · exact Or.inr (Or.inr ⟨ht2, ht3⟩)
        | none =>
          simp only at hrun
          have hres2 : m2.result = none ∧ m2.winPred = false := by
            rcases htri with ⟨-, ht2, ht3⟩ | ⟨ht1, -, -⟩ | ⟨ht1, -, -⟩
            · exact ⟨ht2, ht3⟩
            · exact Option.noConfusion ht1
            · exact Option.noConfusion ht1
          by_cases hrem : m2.remainingNeighboringMines p = 0
          · rw [if_pos hrem] at hrun
            unfold Minefield.visitNeighbors at hrun
            rcases hloop : Minefield.visitLoop fuel m2
                (((m2.unvisitedNeighbors p).map Cell.position).reverse)
              with _ | ⟨m3, og3⟩
            · rw [hloop] at hrun
              exact Option.noConfusion hrun
            · rw [hloop] at hrun
              simp only at hrun
              injection hrun with hrun'
              injection hrun' with h1 h2
              subst h1
              obtain ⟨hlwf, hlmines, hllen, hlall⟩ := Minefield.visitLoop_preserves hloop
              have hltri := Minefield.visitLoop_result hloop hres2.1 hres2.2
              refine GameInv_of_facts (hlwf hwf2) ?_ ?_ ?_ (iff_of_tri ?_)
              · rw [hlmines, hllen]
                exact hb2
              · rw [Minefield.unstarted_transfer (hlall _ (fun c => rfl))]
                exact hu2
              · exact Minefield.resolved_transfer (hlall _ (fun c => rfl)) hresolved2
              · rcases hltri with ⟨-, ht2, ht3⟩ | ⟨-, ht2, ht3⟩ | ⟨-, ht2, ht3⟩
                · exact Or.inl ⟨ht2, ht3⟩
                · exact Or.inr (Or.inl ⟨ht2, ht3⟩)
                · exact Or.inr (Or.inr ⟨ht2, ht3⟩)
          · rw [if_neg hrem] at hrun
            injection hrun with hrun'
            injection hrun' with h1 h2
            subst h1
            exact GameInv_of_facts hwf2 hb2 hu2 hresolved2
              (iff_of_tri (Or.inl hres2))

/-- `toggle_flag` preserves the game invariant: it only flips a `flagged`
field, which none of the invariant's components mention. -/
theorem Minefield.toggleFlag_GameInv (m : Minefield) (p : Vector2D)
    (hinv : GameInv m) : GameInv (m.toggleFlag p).1 := by
  obtain ⟨hwf, hb, hun3, hun4, hiff⟩ := hinv
  have hall := Minefield.toggleFlag_all m p
  have hmine : ∀ c : Cell, c.toggleFlag.mine = c.mine := by
    intro c
    unfold Cell.toggleFlag
    split_ifs <;> rfl
  have hvis : ∀ c : Cell, c.toggleFlag.visited = c.visited := by
    intro c
    unfold Cell.toggleFlag
    split_ifs <;> rfl
  have hu' : (m.toggleFlag p).1.unstarted = m.unstarted :=
    Minefield.unstarted_transfer (hall _ (fun c => by simp [hmine c]))
  have hres' : (m.toggleFlag p).1.result = m.result :=
    Minefield.toggleFlag_result m p
  have hwp' : (m.toggleFlag p).1.winPred = m.winPred := by
    unfold Minefield.winPred
    exact hall _ (fun c => by simp [hmine c, hvis c])
  refine ⟨Minefield.toggleFlag_wf m p hwf, ?_, ?_, ?_, ?_⟩
  · rw [Minefield.toggleFlag_mines, Minefield.toggleFlag_cells_length]
    exact hb
  · rw [hu', hres']
    intro hu
    refine ⟨(hun3 hu).1, ?_⟩
    have h2 := cells_prop_of_all_eq
      (hall (fun c => !c.visited) (fun c => by simp [hvis c]))
      (fun c hc => by simp [(hun3 hu).2 c hc])
    intro c hc
    have h3 := h2 c hc
    simpa using h3
  · rw [hu']
    intro hu
    exact Minefield.resolved_transfer
      (hall _ (fun c => by simp [hmine c])) (hun4 hu)
  · rw [hres', hu', hwp']
    exact hiff

theorem GameInv_of_mk {w h n : Int} {m0 : Minefield}
    (hmk : mkMinefield w h n = .ok m0) : GameInv m0 := by
  obtain ⟨h1, h2, h3, h4, h5, h6, h7, h8, hgrid⟩ := mkMinefield_ok_parts hmk
  have hcells := mkMinefield_cells hmk
  refine ⟨mkMinefield_wf hmk, ?_, ?_, ?_, ?_⟩
  · rw [h7, hcells.2]
    have hwh : ((h.toNat * w.toNat : Nat) : Int) = w * h := by
      push_cast
      rw [Int.toNat_of_nonneg (by omega), Int.toNat_of_nonneg (by omega)]
      ring
    rw [hwh]
    omega
  · intro hu
    exact ⟨h8, fun c hc => (hcells.1 c hc).2.2⟩
  · intro hu
    rw [mkMinefield_unstarted hmk] at hu
    exact Bool.noConfusion hu
  · rw [h8, mkMinefield_unstarted hmk]
    simp

/-- Every reachable field state satisfies the game invariant. -/
theorem Reachable_GameInv {m : Minefield} (hr : Reachable m) : GameInv m := by
  obtain ⟨w, h, n, m0, hmk, hsteps⟩ := hr
  induction hsteps with
  | refl => exact GameInv_of_mk hmk
  | tail hab hbc ih =>
    cases hbc with
    | flag p => exact Minefield.toggleFlag_GameInv _ p ih
    | visit mc fuel picks p e hs hrun => exact Minefield.visit_GameInv hrun hs ih

/-! ### Claim C8 -/

/-- C8, counterexample: on the freshly constructed field `Minefield(2, 1, 1)`
(reached by the empty sequence of operations) every cell with
`isMine == false` is revealed — vacuously, since before placement no cell
has `isMine` resolved to `False` at all — yet the outcome is not `won`.
So "outcome == won iff all cells with isMine == false are revealed" fails
as stated. -/
theorem C8_counterexample :
    mkMinefield 2 1 1 = .ok c8fresh ∧
    (∀ c ∈ c8fresh.cells, c.mine = some false → c.visited = true) ∧
    ¬c8fresh.result = some .WON :=
  ⟨rfl, by decide, by decide⟩

/-- C8 (amended): after any sequence of operations, the outcome is `won` if
and only if the field is initialized (mines placed) *and* every cell with
`isMine == false` is revealed.  A flagged-but-unrevealed non-mine cell
therefore keeps the outcome from being `won` (its `visited` is false and
flags never make a cell count as revealed). -/
theorem C8_won_iff (m : Minefield) (hr : Reachable m) :
    m.result = some .WON ↔
      (m.unstarted = false ∧
        ∀ c ∈ m.cells, c.mine = some false → c.visited = true) := by
  obtain ⟨hwf, hb, hun3, hun4, hiff⟩ := Reachable_GameInv hr
  rw [hiff]
  constructor
  · rintro ⟨hu, hwp⟩
    refine ⟨hu, ?_⟩
    unfold Minefield.winPred at hwp
    intro c hc hmf
    have h2 := List.all_eq_true.mp hwp c hc
    simp [hmf] at h2
    exact h2
  · rintro ⟨hu, hall⟩
    refine ⟨hu, ?_⟩
    unfold Minefield.winPred
    rw [List.all_eq_true]
    intro c hc
    have hres := hun4 hu c hc
    by_cases hmt : c.mine = some true
    · simp [hmt]
    · have hmf : c.mine = some false := by
        cases hmm : c.mine with
        | none => exact absurd hmm hres
        | some b =>
          cases b with
          | true => exact absurd hmm hmt
          | false => rfl
      simp [hall c hc hmf]

/-- C8, witness: the amended equivalence applied to the reachable fresh
field `c8fresh` (both sides false there). -/
theorem C8_witness :
    Reachable c8fresh ∧
    (c8fresh.result = some .WON ↔
      (c8fresh.unstarted = false ∧
        ∀ c ∈ c8fresh.cells, c.mine = some false → c.visited = true)) :=
  have hr : Reachable c8fresh :=
    ⟨2, 1, 1, c8fresh, rfl, Relation.ReflTransGen.refl⟩
  ⟨hr, C8_won_iff c8fresh hr⟩

/-! ### Exact mine counting for placement (claim C7) -/

theorem countP_resolve_map (l : List Cell) :
    (l.map (fun d => if d.mine = none then { d with mine := some false }
      else d)).countP (fun d => decide (d.mine = some true))
    = l.countP (fun d => decide (d.mine = some true)) := by
  induction l with
  | nil => rfl
  | cons d rest ihl =>
    simp only [List.map_cons, List.countP_cons, ihl]
    by_cases hnone : d.mine = none
    · simp [hnone]
    · simp [hnone]

theorem Minefield.pickFold_count_exact (todo : List Vector2D) (acc : Minefield)
    (hnd : todo.Nodup)
    (hq : ∀ q ∈ todo, (acc.get q).map Cell.mine = some none) :
    (todo.foldl (fun acc q => match acc.get q with
      | some cq => acc.setCell q { cq with mine := some true }
      | none => acc) acc).cells.countP (fun d => decide (d.mine = some true))
      = acc.cells.countP (fun d => decide (d.mine = some true)) + todo.length := by
  induction todo generalizing acc with
  | nil => simp
  | cons q rest ih =>
    rw [List.foldl_cons]
    obtain ⟨cq, hcq, hcqmine⟩ : ∃ cq, acc.get q = some cq ∧ cq.mine = none := by
      have h1 := hq q (List.mem_cons_self q rest)
      cases hg : acc.get q with
      | none => rw [hg] at h1; exact Option.noConfusion h1
      | some cq =>
        rw [hg] at h1
        injection h1 with h1'
        exact ⟨cq, rfl, h1'⟩
    rw [hcq]
    simp only
    have hnd' := (List.nodup_cons.mp hnd).2
    have hqnot := (List.nodup_cons.mp hnd).1
    have hstep := Minefield.cells_countP_setCell hcq { cq with mine := some true }
      (fun d => decide (d.mine = some true))
    have hrest : ∀ r ∈ rest, ((acc.setCell q { cq with mine := some true }).get r).map
        Cell.mine = some none := by
      intro r hr
      have hrq : r ≠ q := fun hrq => hqnot (hrq ▸ hr)
      rw [Minefield.get_setCell_ne _ (Minefield.get_some_parts hcq).1 hrq]
      exact hq r (List.mem_cons_of_mem q hr)
    rw [ih _ hnd' hrest]
    simp only [hcqmine] at hstep
    simp at hstep
    simp only [List.length_cons]
    omega

theorem Minefield.startMines_count {m : Minefield} {s : Vector2D} {c : Cell}
    (picks : List Vector2D) (hc : m.get s = some c)
    (hwf : m.WF) (hun : m.unstarted = true)
    (hnd : picks.Nodup) (hmem : ∀ q ∈ picks, m.contains q = true ∧ q ≠ s) :
    (m.startMines s picks).1.cells.countP (fun d => decide (d.mine = some true))
      = picks.length := by
  have hallnone : ∀ d ∈ m.cells, d.mine = none := by
    intro d hd
    have hallu := hun
    unfold Minefield.unstarted at hallu
    have := List.all_eq_true.mp hallu d hd
    simpa using this
  have hcmine : c.mine = none := hallnone c (Minefield.get_mem_cells hc)
  unfold Minefield.startMines
  rw [hc]
  simp only
  rw [Minefield.cells_grid_map, countP_resolve_map]
  have hcount1 : (m.setCell s { c with mine := some false }).cells.countP
      (fun d => decide (d.mine = some true)) = 0 := by
    have hstep := Minefield.cells_countP_setCell hc { c with mine := some false }
      (fun d => decide (d.mine = some true))
    have hcount0 : m.cells.countP (fun d => decide (d.mine = some true)) = 0 := by
      rw [List.countP_eq_zero]
      intro d hd
      simp [hallnone d hd]
    simp only [hcmine] at hstep
    simp at hstep
    omega
  have hq : ∀ q ∈ picks, ((m.setCell s { c with mine := some false }).get q).map
      Cell.mine = some none := by
    intro q hqmem
    obtain ⟨hqc, hqs⟩ := hmem q hqmem
    rw [Minefield.get_setCell_ne _ (Minefield.get_some_parts hc).1 hqs]
    obtain ⟨dq, hdq⟩ := Minefield.wf_contains_get hwf hqc
    rw [hdq]
    simp [hallnone dq (Minefield.get_mem_cells hdq)]
  rw [Minefield.pickFold_count_exact picks _ hnd hq, hcount1]
  omega

theorem Minefield.visitCell_countP (m : Minefield) (q : Vector2D)
    (P : Cell → Bool) (hP : ∀ c, P { c with visited := true } = P c) :
    (m.visitCell q).1.cells.countP P = m.cells.countP P := by
  rcases Minefield.visitCell_grid m q with hgr | ⟨c, hg, hv, hf, hgr⟩
  · rw [Minefield.cells_of_grid_eq hgr]
  · rw [Minefield.cells_of_grid_eq hgr]
    have hstep := Minefield.cells_countP_setCell hg { c with visited := true } P
    rw [hP c] at hstep
    omega

theorem Minefield.visitLoop_countP {fuel : Nat} {m m' : Minefield}
    {stack : List Vector2D} {og : Option GameOver}
    (h : Minefield.visitLoop fuel m stack = some (m', og))
    (P : Cell → Bool) (hP : ∀ c, P { c with visited := true } = P c) :
    m'.cells.countP P = m.cells.countP P := by
  induction fuel generalizing m stack with
  | zero =>
    cases stack with
    | nil =>
      simp only [Minefield.visitLoop] at h
      injection h with h'
      injection h' with h1 h2
      subst h1
      rfl
    | cons q rest =>
      simp only [Minefield.visitLoop] at h
      exact Option.noConfusion h
  | succ fuel ih =>
    cases stack with
    | nil =>
      simp only [Minefield.visitLoop] at h
      injection h with h'
      injection h' with h1 h2
      subst h1
      rfl
    | cons q rest =>
      simp only [Minefield.visitLoop] at h
      rcases hvc : m.visitCell q with ⟨m1, og1⟩
      rw [hvc] at h
      have hc1 : m1.cells.countP P = m.cells.countP P := by
        have hh := Minefield.visitCell_countP m q P hP
        rw [hvc] at hh
        exact hh
      cases og1 with
      | some g =>
        simp only at h
        injection h with h'
        injection h' with h1 h2
        subst h1
        exact hc1
      | none =>
        simp only at h
        have hnext : ∃ stack', Minefield.visitLoop fuel m1 stack' = some (m', og) := by
          by_cases hz : m1.neighboringMines q = 0
          · rw [if_pos hz] at h
            exact ⟨_, h⟩
          · rw [if_neg hz] at h
            exact ⟨_, h⟩
        obtain ⟨stack', h'⟩ := hnext
        exact (ih h').trans hc1

theorem Cell.toggleFlag_mine (c : Cell) : c.toggleFlag.mine = c.mine := by
  unfold Cell.toggleFlag
  split_ifs <;> rfl

theorem Minefield.toggleFlag_get_mine (m : Minefield) (p q : Vector2D) :
    ((m.toggleFlag p).1.get q).map Cell.mine = (m.get q).map Cell.mine := by
  unfold Minefield.toggleFlag
  cases hg : m.get p with
  | none => rfl
  | some c =>
    simp only
    by_cases hpq : q = p
    · subst hpq
      rw [Minefield.get_setCell_self hg, hg]
      simp [Cell.toggleFlag_mine]
    · rw [Minefield.get_setCell_ne _ (Minefield.get_some_parts hg).1 hpq]

theorem Minefield.toggleFlag_unstarted (m : Minefield) (p : Vector2D) :
    (m.toggleFlag p).1.unstarted = m.unstarted :=
  Minefield.unstarted_transfer (Minefield.toggleFlag_all m p _
    (fun c => by simp [Cell.toggleFlag_mine c]))

/-- A `visit` on an already initialized field never changes any `mine` field
and keeps the field initialized. -/
theorem Minefield.visit_mine_frozen {m : Minefield} {fuel : Nat}
    {picks : List Vector2D} {p : Vector2D} {m' : Minefield} {e : Option MinesErr}
    (hu : m.unstarted = false)
    (hrun : m.visit fuel picks p = some (m', e)) :
    (∀ q, (m'.get q).map Cell.mine = (m.get q).map Cell.mine) ∧
    m'.unstarted = false := by
  unfold Minefield.visit at hrun
  cases hres : m.result with
  | some g =>
    rw [hres] at hrun
    simp only at hrun
    injection hrun with hrun'
    injection hrun' with h1 h2
    subst h1
    exact ⟨fun _ => rfl, hu⟩
  | none =>
    rw [hres] at hrun
    simp only at hrun
    rw [if_neg (by rw [hu]; exact Bool.false_ne_true)] at hrun
    simp only at hrun
    cases hgp : m.get p with
    | none =>
      rw [hgp] at hrun
      simp only at hrun
      injection hrun with hrun'
      injection hrun' with h1 h2
      subst h1
      exact ⟨fun _ => rfl, hu⟩
    | some c =>
      rw [hgp] at hrun
      simp only at hrun
      rcases hvc : m.visitCell p with ⟨m2, og2⟩
      rw [hvc] at hrun
      have hmine2 : ∀ q, (m2.get q).map Cell.mine = (m.get q).map Cell.mine := by
        intro q
        have hh := Minefield.visitCell_get_mine m p q
        rw [hvc] at hh
        exact hh
      have hu2 : m2.unstarted = false := by
        have hh := Minefield.visitCell_all m p (fun d => decide (d.mine = none))
          (fun d => rfl)
        rw [hvc] at hh
        rw [Minefield.unstarted_transfer hh]
        exact hu
      cases og2 with
      | some g =>
        simp only at hrun
        injection hrun with hrun'
        injection hrun' with h1 h2
        subst h1
        exact ⟨hmine2, hu2⟩
      | none =>
        simp only at hrun
        by_cases hrem : m2.remainingNeighboringMines p = 0
        · rw [if_pos hrem] at hrun
          unfold Minefield.visitNeighbors at hrun
          rcases hloop : Minefield.visitLoop fuel m2
              (((m2.unvisitedNeighbors p).map Cell.position).reverse)
            with _ | ⟨m3, og3⟩
          · rw [hloop] at hrun
            exact Option.noConfusion hrun
          · rw [hloop] at hrun
            simp only at hrun
            injection hrun with hrun'
            injection hrun' with h1 h2
            subst h1
            refine ⟨?_, ?_⟩
            · intro q
              rw [(Minefield.visitLoop_invariants hloop).1 q, hmine2 q]
            · obtain ⟨-, -, -, hlall⟩ := Minefield.visitLoop_preserves hloop
              rw [Minefield.unstarted_transfer (hlall _ (fun d => rfl))]
              exact hu2
        · rw [if_neg hrem] at hrun
          injection hrun with hrun'
          injection hrun' with h1 h2
          subst h1
          exact ⟨hmine2, hu2⟩

/-- Once the field is initialized, no later operation changes any `mine`
field. -/
theorem Step_mine_frozen {m1 m2 : Minefield} (hstep : Step m1 m2)
    (hu : m1.unstarted = false) :
    m2.unstarted = false ∧
    ∀ q, (m2.get q).map Cell.mine = (m1.get q).map Cell.mine := by
  cases hstep with
  | flag p =>
    exact ⟨(Minefield.toggleFlag_unstarted m1 p).trans hu,
      Minefield.toggleFlag_get_mine m1 p⟩
  | visit mc fuel picks p e hs hrun =>
    obtain ⟨h1, h2⟩ := Minefield.visit_mine_frozen hu hrun
    exact ⟨h2, h1⟩

theorem RTG_mine_frozen {m1 m2 : Minefield}
    (hsteps : Relation.ReflTransGen Step m1 m2) (hu : m1.unstarted = false) :
    m2.unstarted = false ∧
    ∀ q, (m2.get q).map Cell.mine = (m1.get q).map Cell.mine := by
  induction hsteps with
  | refl => exact ⟨hu, fun _ => rfl⟩
  | tail hab hbc ih =>
    obtain ⟨ihu, ihq⟩ := ih
    obtain ⟨hu', hq'⟩ := Step_mine_frozen hbc ihu
    exact ⟨hu', fun q => (hq' q).trans (ihq q)⟩

/-! ### Claim C7 -/

/-- C7: for every valid configuration, immediately after placement (the
first visit, with `picks` the sampled cells — distinct, `M` many, drawn from
the cells other than the visited one, as `random.sample` guarantees) exactly
`M` cells have `mine = True` and every other cell has `mine = False` (no
cell keeps `mine = None`); and the placement is permanent: no later
`visit`/`toggle_flag` step ever changes any `mine` field again ("exactly
once per field lifetime").  In this embedding `_initialize` is a single pure
function application, so the "single atomic step" reading is inherent: no
intermediate partial placements exist. -/
theorem C7_mine_count {w h n : Int} {m0 : Minefield} (fuel : Nat)
    {picks : List Vector2D} {p : Vector2D} {c0 : Cell}
    {out : Minefield × Option MinesErr}
    (hmk : mkMinefield w h n = .ok m0)
    (hc : m0.get p = some c0)
    (hnd : picks.Nodup)
    (hlen : (picks.length : Int) = n)
    (hmem : ∀ q ∈ picks, m0.contains q = true ∧ q ≠ p)
    (hrun : m0.visit fuel picks p = some out) :
    ((out.1.cells.countP (fun d => decide (d.mine = some true)) : Int) = n) ∧
    (∀ c ∈ out.1.cells, c.mine = some true ∨ c.mine = some false) ∧
    (∀ m2, Relation.ReflTransGen Step out.1 m2 →
      ∀ q, (m2.get q).map Cell.mine = (out.1.get q).map Cell.mine) := by
  have hres : m0.result = none := (mkMinefield_ok_parts hmk).2.2.2.2.2.2.2.1
  have hun : m0.unstarted = true := mkMinefield_unstarted hmk
  have hwf : m0.WF := mkMinefield_wf hmk
  have hfinal : ∀ {mf : Minefield},
      mf.cells.countP (fun d => decide (d.mine = some true)) = picks.length →
      (∀ c ∈ mf.cells, c.mine ≠ none) → mf.unstarted = false →
      ((mf.cells.countP (fun d => decide (d.mine = some true)) : Int) = n) ∧
      (∀ c ∈ mf.cells, c.mine = some true ∨ c.mine = some false) ∧
      (∀ m2, Relation.ReflTransGen Step mf m2 →
        ∀ q, (m2.get q).map Cell.mine = (mf.get q).map Cell.mine) := by
    intro mf hcnt hresv hu
    refine ⟨by rw [hcnt]; exact hlen, ?_, ?_⟩
    · intro c hcmem
      have hcne := hresv c hcmem
      cases hmm : c.mine with
      | none => exact absurd hmm hcne
      | some b =>
        cases b with
        | true => exact Or.inl rfl
        | false => exact Or.inr rfl
    · intro m2 hm2 q
      exact (RTG_mine_frozen hm2 hu).2 q
  unfold Minefield.visit at hrun
  rw [hres] at hrun
  simp only at hrun
  rw [if_pos hun] at hrun
  rcases hsm : m0.startMines p picks with ⟨m3, e3⟩
  rw [hsm] at hrun
  have hparts := Minefield.startMines_parts picks hc
  rw [hsm] at hparts
  simp only at hparts
  obtain ⟨he3, hp2, hp3, hp4, hp5, hp6, hp7, hp8⟩ := hparts
  subst he3
  simp only at hrun
  have hcount3 : m3.cells.countP (fun d => decide (d.mine = some true))
      = picks.length := by
    have hh := Minefield.startMines_count picks hc hwf hun hnd hmem
    rw [hsm] at hh
    simpa using hh
  have hlen3 : 0 < m3.cells.length := by
    rw [hp4]
    have hcells := (mkMinefield_cells hmk).2
    have hh := (mkMinefield_ok_parts hmk).1
    have hh2 := (mkMinefield_ok_parts hmk).2.1
    rw [hcells]
    have : 0 < h.toNat ∧ 0 < w.toNat := by omega
    exact Nat.mul_pos this.1 this.2
  have hne3 : m3.cells ≠ [] := by
    intro hnil
    rw [hnil] at hlen3
    simp at hlen3
  have hu3 : m3.unstarted = false := Minefield.unstarted_eq_false_of_resolved hne3 hp5
  have hmine3 := (Minefield.startMines_mine_at_start hc
    (fun q hq => (hmem q hq).2)).2.1
  rw [hsm] at hmine3
  simp only at hmine3
  obtain ⟨c3, hc3⟩ : ∃ c3, m3.get p = some c3 := by
    cases hg : m3.get p with
    | none => rw [hg] at hmine3; exact Option.noConfusion hmine3
    | some c3 => exact ⟨c3, rfl⟩
  rw [hc3] at hrun
  simp only at hrun
  rcases hvc : m3.visitCell p with ⟨m4, og4⟩
  rw [hvc] at hrun
  have hcount4 : m4.cells.countP (fun d => decide (d.mine = some true))
      = picks.length := by
    have hh := Minefield.visitCell_countP m3 p
      (fun d => decide (d.mine = some true)) (fun d => rfl)
    rw [hvc] at hh
    simp only at hh
    rw [hh]
    exact hcount3
  have hall4 : ∀ P : Cell → Bool, (∀ c, P { c with visited := true } = P c) →
      m4.cells.all P = m3.cells.all P := by
    intro P hP
    have hh := Minefield.visitCell_all m3 p P hP
    rw [hvc] at hh
    exact hh
  have hresolved4 : ∀ c ∈ m4.cells, c.mine ≠ none :=
    Minefield.resolved_transfer (hall4 _ (fun c => rfl)) hp5
  have hu4 : m4.unstarted = false := by
    rw [Minefield.unstarted_transfer (hall4 _ (fun c => rfl))]
    exact hu3
  cases og4 with
  | some g =>
    simp only at hrun
    injection hrun with hrun'
    subst hrun'
    exact hfinal hcount4 hresolved4 hu4
  | none =>
    simp only at hrun
    by_cases hrem : m4.remainingNeighboringMines p = 0
    · rw [if_pos hrem] at hrun
      unfold Minefield.visitNeighbors at hrun
      rcases hloop : Minefield.visitLoop fuel m4
          (((m4.unvisitedNeighbors p).map Cell.position).reverse)
        with _ | ⟨m5, og5⟩
      · rw [hloop] at hrun
        exact Option.noConfusion hrun
      · rw [hloop] at hrun
        simp only at hrun
        injection hrun with hrun'
        subst hrun'
        obtain ⟨-, -, -, hlall⟩ := Minefield.visitLoop_preserves hloop
        refine hfinal ?_ ?_ ?_
        · rw [Minefield.visitLoop_countP hloop
            (fun d => decide (d.mine = some true)) (fun c => rfl)]
          exact hcount4
        · exact Minefield.resolved_transfer (hlall _ (fun c => rfl)) hresolved4
        · rw [Minefield.unstarted_transfer (hlall _ (fun c => rfl))]
          exact hu4
    · rw [if_neg hrem] at hrun
      injection hrun with hrun'
      subst hrun'
      exact hfinal hcount4 hresolved4 hu4

/-- C7, witness: the 2-by-2 field with one mine sampled at (1,1), first
visit at the origin. -/
theorem C7_witness :
    (mkMinefield 2 2 1 = .ok c5field ∧
      c5field.get ⟨0, 0⟩ = some { position := ⟨0, 0⟩ } ∧
      [(⟨1, 1⟩ : Vector2D)].Nodup ∧
      (([(⟨1, 1⟩ : Vector2D)].length : Int) = 1) ∧
      (∀ q ∈ [(⟨1, 1⟩ : Vector2D)], c5field.contains q = true ∧
        q ≠ (⟨0, 0⟩ : Vector2D))) ∧
    ∃ out, c5field.visit 20 [⟨1, 1⟩] ⟨0, 0⟩ = some out ∧
      (((out.1.cells.countP (fun d => decide (d.mine = some true)) : Int) = 1) ∧
       (∀ c ∈ out.1.cells, c.mine = some true ∨ c.mine = some false) ∧
       (∀ m2, Relation.ReflTransGen Step out.1 m2 →
         ∀ q, (m2.get q).map Cell.mine = (out.1.get q).map Cell.mine)) := by
  refine ⟨⟨rfl, rfl, by decide, by decide, by decide⟩, ?_⟩
  rcases hrun : c5field.visit 20 [⟨1, 1⟩] ⟨0, 0⟩ with _ | out
  · exact absurd hrun (by decide)
  · exact ⟨out, rfl,
      C7_mine_count 20 (rfl : mkMinefield 2 2 1 = .ok c5field)
        (rfl : c5field.get ⟨0, 0⟩ = some { position := ⟨0, 0⟩ })
        (by decide) (by decide) (by decide) hrun⟩

/-! ### Cascade-exactness machinery (claim C2) -/

theorem Minefield.get_isSome_congr {s M : Minefield}
    (h : ∀ q, (s.get q).map Cell.mine = (M.get q).map Cell.mine) (q : Vector2D) :
    (s.get q).isSome = (M.get q).isSome := by
  have hq := h q
  cases hs : s.get q with
  | none =>
    cases hM : M.get q with
    | none => rfl
    | some c => rw [hs, hM] at hq; simp at hq
  | some c =>
    cases hM : M.get q with
    | none => rw [hs, hM] at hq; simp at hq
    | some d => rfl

theorem Minefield.get_mine_congr {s M : Minefield}
    (h : ∀ q, (s.get q).map Cell.mine = (M.get q).map Cell.mine) {q : Vector2D}
    {cs cM : Cell} (hs : s.get q = some cs) (hM : M.get q = some cM) :
    cs.mine = cM.mine := by
  have hq := h q
  rw [hs, hM] at hq
  simpa using hq

theorem Minefield.countMines_filterMap_congr {s M : Minefield}
    (h : ∀ r, (s.get r).map Cell.mine = (M.get r).map Cell.mine) :
    ∀ l : List Vector2D,
      (l.filterMap s.get).countP (fun c => decide (c.mine = some true))
        = (l.filterMap M.get).countP (fun c => decide (c.mine = some true)) := by
  intro l
  induction l with
  | nil => rfl
  | cons a t ih =>
    have ha := h a
    rw [List.filterMap_cons, List.filterMap_cons]
    cases hs : s.get a with
    | none =>
      cases hM : M.get a with
      | none => exact ih
      | some cM => rw [hs, hM] at ha; simp at ha
    | some cs =>
      cases hM : M.get a with
      | none => rw [hs, hM] at ha; simp at ha
      | some cM =>
        rw [hs, hM] at ha
        simp only [Option.map_some'] at ha
        injection ha with ha'
        rw [List.countP_cons, List.countP_cons, ih, ha']

theorem Minefield.neighboringMines_congr {s M : Minefield}
    (h : ∀ r, (s.get r).map Cell.mine = (M.get r).map Cell.mine) (q : Vector2D) :
    s.neighboringMines q = M.neighboringMines q := by
  unfold Minefield.neighboringMines Minefield.neighborCells
  exact Minefield.countMines_filterMap_congr h q.neighbors

theorem Minefield.neighboringMines_zero_nbr {M : Minefield} {q : Vector2D}
    (h0 : M.neighboringMines q = 0) {r : Vector2D} (hr : r ∈ q.neighbors)
    {cr : Cell} (hcr : M.get r = some cr) : cr.mine ≠ some true := by
  unfold Minefield.neighboringMines Minefield.neighborCells at h0
  have hmem : cr ∈ q.neighbors.filterMap M.get :=
    List.mem_filterMap.mpr ⟨r, hr, hcr⟩
  have := List.countP_eq_zero.mp h0 cr hmem
  simpa using this

theorem Minefield.reach_isSome {M : Minefield} {p : Vector2D} {c0 : Cell}
    (hc : M.get p = some c0) :
    ∀ q, Relation.ReflTransGen M.Adj p q → (M.get q).isSome = true := by
  intro q hr
  induction hr with
  | refl => rw [hc]; rfl
  | tail hab hbc ih => exact hbc.2.2.2

theorem Minefield.reach_not_mine {M : Minefield} {p : Vector2D} {c0 : Cell}
    (hc : M.get p = some c0) (hcm : c0.mine ≠ some true) :
    ∀ q, Relation.ReflTransGen M.Adj p q →
      ∀ cq, M.get q = some cq → cq.mine ≠ some true := by
  intro q hr
  induction hr with
  | refl =>
    intro cq hcq
    rw [hc] at hcq
    injection hcq with h1
    rw [← h1]
    exact hcm
  | tail hab hbc ih =>
    intro cq hcq
    exact Minefield.neighboringMines_zero_nbr hbc.2.1 hbc.2.2.1 hcq

theorem Minefield.neighboringFlags_zero {s : Minefield}
    (h : ∀ q cq, s.get q = some cq → cq.flagged = false) (q : Vector2D) :
    s.neighboringFlags q = 0 := by
  unfold Minefield.neighboringFlags Minefield.neighborCells
  rw [List.countP_eq_zero]
  intro c hcmem
  obtain ⟨r, hrnb, hrget⟩ := List.mem_filterMap.mp hcmem
  rw [h r c hrget]
  simp

theorem Minefield.remaining_eq_count {s : Minefield}
    (h : ∀ q cq, s.get q = some cq → cq.flagged = false) (q : Vector2D) :
    s.remainingNeighboringMines q = (s.neighboringMines q : Int) := by
  unfold Minefield.remainingNeighboringMines
  rw [Minefield.neighboringFlags_zero h q]
  rw [show (((0 : Nat) : Int)) = 0 from rfl, sub_zero]
  exact max_eq_right (Int.ofNat_nonneg _)

theorem Minefield.mem_unvisited_positions {s : Minefield} (hwf : s.WF)
    (q x : Vector2D) :
    x ∈ (s.unvisitedNeighbors q).map Cell.position ↔
      (x ∈ q.neighbors ∧ ∃ cx, s.get x = some cx ∧ cx.visited = false) := by
  unfold Minefield.unvisitedNeighbors Minefield.neighborCells
  constructor
  · intro hx
    obtain ⟨c, hcmem, hcpos⟩ := List.mem_map.mp hx
    obtain ⟨hcmem2, hcv⟩ := List.mem_filter.mp hcmem
    obtain ⟨r, hrnb, hrget⟩ := List.mem_filterMap.mp hcmem2
    have hpos := Minefield.wf_get_position hwf hrget
    have hxr : x = r := by rw [← hcpos, hpos]
    subst hxr
    refine ⟨hrnb, c, hrget, ?_⟩
    simpa using hcv
  · rintro ⟨hxnb, cx, hget, hv⟩
    refine List.mem_map.mpr ⟨cx, List.mem_filter.mpr
      ⟨List.mem_filterMap.mpr ⟨x, hxnb, hget⟩, ?_⟩,
      Minefield.wf_get_position hwf hget⟩
    simp [hv]

theorem Minefield.visitCell_reveal {s : Minefield} {q : Vector2D} {cq : Cell}
    (hq : s.get q = some cq) (hv : cq.visited = false) (hf : cq.flagged = false)
    (hm : cq.mine ≠ some true) :
    (∀ r, (s.visitCell q).1.get r
        = (s.setCell q { cq with visited := true }).get r) ∧
    ((s.visitCell q).2 = none ∨ (s.visitCell q).2 = some GameOver.WON) := by
  unfold Minefield.visitCell
  rw [hq]
  simp only
  rw [if_neg (show ¬((cq.visited || cq.flagged) = true) by rw [hv, hf]; simp)]
  rw [if_neg hm]
  by_cases hwp : (s.setCell q { cq with visited := true }).winPred = true
  · rw [if_pos hwp]
    exact ⟨fun r => rfl, Or.inr rfl⟩
  · rw [if_neg hwp]
    exact ⟨fun r => rfl, Or.inl rfl⟩

theorem Minefield.reach_visited_of_closed {M mf : Minefield} {p : Vector2D}
    (hmap : ∀ q, (mf.get q).map Cell.mine = (M.get q).map Cell.mine)
    (hp : (mf.get p).map Cell.visited = some true)
    (hcl : ∀ q cq, mf.get q = some cq → cq.visited = true →
      M.neighboringMines q = 0 → ∀ r ∈ q.neighbors, ∀ cr, mf.get r = some cr →
        cr.visited = true) :
    ∀ q, Relation.ReflTransGen M.Adj p q →
      (mf.get q).map Cell.visited = some true := by
  intro q hq
  induction hq with
  | refl => exact hp
  | @tail b c hab hbc ih =>
    obtain ⟨hbsome, hbz, hnb, hcsome⟩ := hbc
    have hbsome2 : (mf.get b).isSome = true := by
      rw [Minefield.get_isSome_congr hmap b]; exact hbsome
    obtain ⟨cb, hcb⟩ := Option.isSome_iff_exists.mp hbsome2
    have hcbv : cb.visited = true := by
      rw [hcb] at ih
      simpa using ih
    have hcsome2 : (mf.get c).isSome = true := by
      rw [Minefield.get_isSome_congr hmap c]; exact hcsome
    obtain ⟨cc, hcc⟩ := Option.isSome_iff_exists.mp hcsome2
    rw [hcc, Option.map_some', hcl b cb hcb hcbv hbz c hnb cc hcc]

theorem Minefield.reach_visited_of_winPred {M mf : Minefield} {p : Vector2D}
    {c0 : Cell} (hc : M.get p = some c0) (hcm : c0.mine ≠ some true)
    (hmap : ∀ q, (mf.get q).map Cell.mine = (M.get q).map Cell.mine)
    (hwp : mf.winPred = true) :
    ∀ q, Relation.ReflTransGen M.Adj p q →
      (mf.get q).map Cell.visited = some true := by
  intro q hq
  have hqsome := Minefield.reach_isSome hc q hq
  have hqsome2 : (mf.get q).isSome = true := by
    rw [Minefield.get_isSome_congr hmap q]; exact hqsome
  obtain ⟨cq, hcq⟩ := Option.isSome_iff_exists.mp hqsome2
  obtain ⟨cMq, hcMq⟩ := Option.isSome_iff_exists.mp hqsome
  have hmine : cq.mine = cMq.mine := Minefield.get_mine_congr hmap hcq hcMq
  have hnm : cMq.mine ≠ some true := Minefield.reach_not_mine hc hcm q hq cMq hcMq
  unfold Minefield.winPred at hwp
  have hall := List.all_eq_true.mp hwp cq (Minefield.get_mem_cells hcq)
  have hcqv : cq.visited = true := by
    have hall2 : cq.mine = some true ∨ cq.visited = true := by
      simpa using hall
    rcases hall2 with hmt | hvv
    · rw [hmine] at hmt
      exact absurd hmt hnm
    · exact hvv
  rw [hcq, Option.map_some', hcqv]

theorem Minefield.cascadeLoop_main {M : Minefield} {p : Vector2D}
    (hreachm : ∀ q, Relation.ReflTransGen M.Adj p q →
      ∀ cq, M.get q = some cq → cq.mine ≠ some true)
    {fuel : Nat} {s : Minefield} {stack : List Vector2D}
    {m2 : Minefield} {og : Option GameOver}
    (h : Minefield.visitLoop fuel s stack = some (m2, og))
    (hswf : s.WF)
    (hmap : ∀ q, (s.get q).map Cell.mine = (M.get q).map Cell.mine)
    (hflag : ∀ q cq, s.get q = some cq → cq.flagged = false)
    (hnew : ∀ q cq, s.get q = some cq → cq.visited = true →
      (M.get q).map Cell.visited = some true ∨ Relation.ReflTransGen M.Adj p q)
    (hstk : ∀ q ∈ stack, Relation.ReflTransGen M.Adj p q ∧ (M.get q).isSome = true)
    (hfront : ∀ q cq, s.get q = some cq → cq.visited = true →
      M.neighboringMines q = 0 → ∀ r ∈ q.neighbors, ∀ cr, s.get r = some cr →
        cr.visited = false → r ∈ stack)
    (hnomine : ∀ q cq, s.get q = some cq → cq.mine = some true →
      cq.visited = false) :
    (∀ q cq, m2.get q = some cq → cq.visited = true →
      (M.get q).map Cell.visited = some true ∨ Relation.ReflTransGen M.Adj p q) ∧
    (∀ q cq, m2.get q = some cq → cq.mine = some true → cq.visited = false) ∧
    (∀ q, (s.get q).map Cell.visited = some true →
      (m2.get q).map Cell.visited = some true) ∧
    (og = none → ∀ q cq, m2.get q = some cq → cq.visited = true →
      M.neighboringMines q = 0 → ∀ r ∈ q.neighbors, ∀ cr, m2.get r = some cr →
        cr.visited = true) ∧
    og ≠ some GameOver.LOST := by
  induction fuel generalizing s stack with
  | zero =>
    cases stack with
    | nil =>
      simp only [Minefield.visitLoop] at h
      injection h with h1
      injection h1 with ha hb
      subst ha
      subst hb
      refine ⟨hnew, hnomine, fun q hq => hq, ?_, by simp⟩
      intro _ a ca hca hcav hza r hrnb cr hcr
      cases hcrv : cr.visited with
      | true => rfl
      | false =>
        exact absurd (hfront a ca hca hcav hza r hrnb cr hcr hcrv)
          (List.not_mem_nil r)
    | cons q rest =>
      simp only [Minefield.visitLoop] at h
      exact Option.noConfusion h
  | succ fuel ih =>
    cases stack with
    | nil =>
      simp only [Minefield.visitLoop] at h
      injection h with h1
      injection h1 with ha hb
      subst ha
      subst hb
      refine ⟨hnew, hnomine, fun q hq => hq, ?_, by simp⟩
      intro _ a ca hca hcav hza r hrnb cr hcr
      cases hcrv : cr.visited with
      | true => rfl
      | false =>
        exact absurd (hfront a ca hca hcav hza r hrnb cr hcr hcrv)
          (List.not_mem_nil r)
    | cons q rest =>
      simp only [Minefield.visitLoop] at h
      obtain ⟨hq_reach, hq_some⟩ := hstk q (List.mem_cons_self q rest)
      have hq_some2 : (s.get q).isSome = true := by
        rw [Minefield.get_isSome_congr hmap q]; exact hq_some
      obtain ⟨cq, hcq⟩ := Option.isSome_iff_exists.mp hq_some2
      obtain ⟨cMq, hcMq⟩ := Option.isSome_iff_exists.mp hq_some
      have hcqf : cq.flagged = false := hflag q cq hcq
      have hcqm : cq.mine ≠ some true := by
        rw [Minefield.get_mine_congr hmap hcq hcMq]
        exact hreachm q hq_reach cMq hcMq
      by_cases hv : cq.visited = true
      · rw [Minefield.visitCell_noop hcq (by rw [hv]; rfl)] at h
        simp only at h
        by_cases hz : s.neighboringMines q = 0
        · rw [if_pos hz] at h
          have hzM : M.neighboringMines q = 0 := by
            rw [← Minefield.neighboringMines_congr hmap q]; exact hz
          refine ih h hswf hmap hflag hnew ?_ ?_ hnomine
          · intro x hx
            rcases List.mem_append.mp hx with hx1 | hx2
            · rw [List.mem_reverse] at hx1
              obtain ⟨hxnb, cx, hgx, hxv⟩ :=
                (Minefield.mem_unvisited_positions hswf q x).mp hx1
              have hxsome : (M.get x).isSome = true := by
                rw [← Minefield.get_isSome_congr hmap x, hgx]; rfl
              exact ⟨Relation.ReflTransGen.tail hq_reach
                ⟨hq_some, hzM, hxnb, hxsome⟩, hxsome⟩
            · exact hstk x (List.mem_cons_of_mem q hx2)
          · intro a ca hca hcav hza r hrnb cr hcr hcrv
            rcases List.mem_cons.mp
              (hfront a ca hca hcav hza r hrnb cr hcr hcrv) with hrq | hrr
            · subst hrq
              rw [hcq] at hcr
              injection hcr with h1
              rw [← h1] at hcrv
              rw [hv] at hcrv
              exact Bool.noConfusion hcrv
            · exact List.mem_append.mpr (Or.inr hrr)
        · rw [if_neg hz] at h
          refine ih h hswf hmap hflag hnew
            (fun x hx => hstk x (List.mem_cons_of_mem q hx)) ?_ hnomine
          intro a ca hca hcav hza r hrnb cr hcr hcrv
          rcases List.mem_cons.mp
            (hfront a ca hca hcav hza r hrnb cr hcr hcrv) with hrq | hrr
          · subst hrq
            rw [hcq] at hcr
            injection hcr with h1
            rw [← h1] at hcrv
            rw [hv] at hcrv
            exact Bool.noConfusion hcrv
          · exact hrr
      · have hv2 : cq.visited = false := by
          revert hv; cases cq.visited <;> simp
        have hrev := Minefield.visitCell_reveal hcq hv2 hcqf hcqm
        rcases hvc : s.visitCell q with ⟨s1, og1⟩
        rw [hvc] at h hrev
        simp only at h hrev
        have hqcont : s.contains q = true := (Minefield.get_some_parts hcq).1
        have hs1self : s1.get q = some { cq with visited := true } := by
          rw [hrev.1 q]
          exact Minefield.get_setCell_self hcq _
        have hs1ne : ∀ r, r ≠ q → s1.get r = s.get r := by
          intro r hrq
          rw [hrev.1 r]
          exact Minefield.get_setCell_ne _ hqcont hrq
        have hs1wf : s1.WF := by
          have := Minefield.visitCell_wf s q hswf
          rw [hvc] at this
          exact this
        have hs1map : ∀ r, (s1.get r).map Cell.mine = (M.get r).map Cell.mine := by
          intro r
          have hstep := Minefield.visitCell_get_mine s q r
          rw [hvc] at hstep
          simp only at hstep
          rw [hstep]
          exact hmap r
        have hs1flag : ∀ r cr, s1.get r = some cr → cr.flagged = false := by
          intro r cr hcr
          by_cases hrq : r = q
          · subst hrq
            rw [hs1self] at hcr
            injection hcr with h1
            rw [← h1]
            exact hcqf
          · rw [hs1ne r hrq] at hcr
            exact hflag r cr hcr
        have hs1new : ∀ r cr, s1.get r = some cr → cr.visited = true →
            (M.get r).map Cell.visited = some true ∨
              Relation.ReflTransGen M.Adj p r := by
          intro r cr hcr hcrv
          by_cases hrq : r = q
          · subst hrq
            exact Or.inr hq_reach
          · rw [hs1ne r hrq] at hcr
            exact hnew r cr hcr hcrv
        have hs1nomine : ∀ r cr, s1.get r = some cr → cr.mine = some true →
            cr.visited = false := by
          intro r cr hcr hcrm
          by_cases hrq : r = q
          · subst hrq
            rw [hs1self] at hcr
            injection hcr with h1
            rw [← h1] at hcrm
            exact absurd hcrm hcqm
          · rw [hs1ne r hrq] at hcr
            exact hnomine r cr hcr hcrm
        have hs1mono : ∀ r, (s.get r).map Cell.visited = some true →
            (s1.get r).map Cell.visited = some true := by
          intro r hr
          by_cases hrq : r = q
          · subst hrq
            rw [hs1self]
            rfl
          · rw [hs1ne r hrq]
            exact hr
        cases og1 with
        | some g =>
          simp only at h
          injection h with h1
          injection h1 with ha hb
          subst ha
          subst hb
          rcases hrev.2 with hnone | hwon
          · exact Option.noConfusion hnone
          · injection hwon with hg
            subst hg
            refine ⟨hs1new, hs1nomine, hs1mono, ?_, ?_⟩
            · intro habs
              exact Option.noConfusion habs
            · intro habs
              injection habs with habs2
              exact GameOver.noConfusion habs2
        | none =>
          simp only at h
          by_cases hz : s1.neighboringMines q = 0
          · rw [if_pos hz] at h
            have hzM : M.neighboringMines q = 0 := by
              rw [← Minefield.neighboringMines_congr hs1map q]; exact hz
            obtain ⟨ihA, ihB, ihC, ihD, ihE⟩ :=
              ih h hs1wf hs1map hs1flag hs1new
                (by
                  intro x hx
                  rcases List.mem_append.mp hx with hx1 | hx2
                  · rw [List.mem_reverse] at hx1
                    obtain ⟨hxnb, cx, hgx, hxv⟩ :=
                      (Minefield.mem_unvisited_positions hs1wf q x).mp hx1
                    have hxsome : (M.get x).isSome = true := by
                      rw [← Minefield.get_isSome_congr hs1map x, hgx]; rfl
                    exact ⟨Relation.ReflTransGen.tail hq_reach
                      ⟨hq_some, hzM, hxnb, hxsome⟩, hxsome⟩
                  · exact hstk x (List.mem_cons_of_mem q hx2))
                (by
                  intro a ca hca hcav hza r hrnb cr hcr hcrv
                  by_cases haq : a = q
                  · rw [haq] at hrnb
                    refine List.mem_append.mpr (Or.inl ?_)
                    rw [List.mem_reverse]
                    exact (Minefield.mem_unvisited_positions hs1wf q r).mpr
                      ⟨hrnb, cr, hcr, hcrv⟩
                  · have hrq : r ≠ q := by
                      intro hrq
                      subst hrq
                      rw [hs1self] at hcr
                      injection hcr with h1
                      rw [← h1] at hcrv
                      simp at hcrv
                    rw [hs1ne a haq] at hca
                    rw [hs1ne r hrq] at hcr
                    rcases List.mem_cons.mp
                      (hfront a ca hca hcav hza r hrnb cr hcr hcrv) with hrq2 | hrr
                    · exact absurd hrq2 hrq
                    · exact List.mem_append.mpr (Or.inr hrr))
                hs1nomine
            exact ⟨ihA, ihB, fun r hr => ihC r (hs1mono r hr), ihD, ihE⟩
          · rw [if_neg hz] at h
            obtain ⟨ihA, ihB, ihC, ihD, ihE⟩ :=
              ih h hs1wf hs1map hs1flag hs1new
                (fun x hx => hstk x (List.mem_cons_of_mem q hx))
                (by
                  intro a ca hca hcav hza r hrnb cr hcr hcrv
                  by_cases haq : a = q
                  · rw [haq] at hza
                    refine absurd hza ?_
                    rw [← Minefield.neighboringMines_congr hs1map q]
                    exact hz
                  · have hrq : r ≠ q := by
                      intro hrq
                      subst hrq
                      rw [hs1self] at hcr
                      injection hcr with h1
                      rw [← h1] at hcrv
                      simp at hcrv
                    rw [hs1ne a haq] at hca
                    rw [hs1ne r hrq] at hcr
                    rcases List.mem_cons.mp
                      (hfront a ca hca hcav hza r hrnb cr hcr hcrv) with hrq2 | hrr
                    · exact absurd hrq2 hrq
                    · exact hrr)
                hs1nomine
            exact ⟨ihA, ihB, fun r hr => ihC r (hs1mono r hr), ihD, ihE⟩

/-! ### Claim C2 -/

/-- C2, counterexample: on a 3-by-3 field with its mine at (2,2), after
visiting the centre (1,1) and flagging the safe corner (0,0), visiting
(1,1) again makes the flag-adjusted remaining count 0 and the cascade
reveals the *mine* at (2,2): the game is lost.  So with flag toggles in the
prior sequence the cascade does reveal a mine cell as a side effect, and the
revealed set is not the zero-region-plus-border of the visited cell. -/
theorem C2_counterexample :
    (c2run.map fun mm =>
      ((mm.1.get ⟨2, 2⟩).map (fun c => (c.mine, c.visited)),
       mm.1.result,
       (mm.2.get ⟨2, 2⟩).map (fun c => (c.mine, c.visited)),
       mm.2.result))
      = some (some (some true, false), none, some (some true, true),
          some GameOver.LOST) := by
  rfl

/-- C2 (amended): restricted to fields with no flags.  For an initialized,
non-terminal, flag-free well-formed field in a cascade-closed state (every
revealed zero-count cell already has all its neighbours revealed — true of
every state reached by flag-free play) and no revealed mine, visiting an
in-bounds unrevealed non-mine cell reveals exactly the cells of
`Minefield.Reach`: the visited cell together with its maximal connected
zero-neighbouring-mine region and that region's immediate border (just the
cell itself when its count is positive).  Every such cell is revealed
afterwards, every newly revealed cell is such a cell, and no mine cell is
ever revealed. -/
theorem C2_cascade_exact {m : Minefield} {p : Vector2D} {c0 : Cell}
    (fuel : Nat) (picks : List Vector2D) {out : Minefield × Option MinesErr}
    (hwf : m.WF) (hres : m.result = none) (hun : m.unstarted = false)
    (hwin : m.winPred = false)
    (hnoflag : ∀ c ∈ m.cells, c.flagged = false)
    (hnomvis : ∀ c ∈ m.cells, c.mine = some true → c.visited = false)
    (hclosed : ∀ c ∈ m.cells, c.visited = true →
      m.neighboringMines c.position = 0 →
      ∀ r ∈ c.position.neighbors, ∀ cr ∈ m.get r, cr.visited = true)
    (hc : m.get p = some c0) (hcv : c0.visited = false)
    (hcm : c0.mine ≠ some true)
    (hrun : m.visit fuel picks p = some out) :
    (∀ q, m.Reach p q → (out.1.get q).map Cell.visited = some true) ∧
    (∀ q cq, out.1.get q = some cq → cq.visited = true →
      (m.get q).map Cell.visited = some true ∨ m.Reach p q) ∧
    (∀ c ∈ out.1.cells, c.mine = some true → c.visited = false) := by
  have hcf : c0.flagged = false := hnoflag c0 (Minefield.get_mem_cells hc)
  have hreachm : ∀ q, Relation.ReflTransGen m.Adj p q →
      ∀ cq, m.get q = some cq → cq.mine ≠ some true :=
    Minefield.reach_not_mine hc hcm
  unfold Minefield.visit at hrun
  rw [hres] at hrun
  simp only at hrun
  rw [if_neg (by rw [hun]; exact Bool.false_ne_true)] at hrun
  simp only at hrun
  rw [hc] at hrun
  simp only at hrun
  have hrev := Minefield.visitCell_reveal hc hcv hcf hcm
  have htri := Minefield.visitCell_tri m p hres hwin
  rcases hvc : m.visitCell p with ⟨m1, og1⟩
  rw [hvc] at hrun hrev htri
  simp only at hrun hrev htri
  have hpcont : m.contains p = true := (Minefield.get_some_parts hc).1
  have hm1self : m1.get p = some { c0 with visited := true } := by
    rw [hrev.1 p]
    exact Minefield.get_setCell_self hc _
  have hm1ne : ∀ r, r ≠ p → m1.get r = m.get r := by
    intro r hrp
    rw [hrev.1 r]
    exact Minefield.get_setCell_ne _ hpcont hrp
  have hm1wf : m1.WF := by
    have := Minefield.visitCell_wf m p hwf
    rw [hvc] at this
    exact this
  have hm1map : ∀ r, (m1.get r).map Cell.mine = (m.get r).map Cell.mine := by
    intro r
    have hstep := Minefield.visitCell_get_mine m p r
    rw [hvc] at hstep
    exact hstep
  have hm1flag : ∀ r cr, m1.get r = some cr → cr.flagged = false := by
    intro r cr hcr
    by_cases hrp : r = p
    · subst hrp
      rw [hm1self] at hcr
      injection hcr with h1
      rw [← h1]
      exact hcf
    · rw [hm1ne r hrp] at hcr
      exact hnoflag cr (Minefield.get_mem_cells hcr)
  have hm1new : ∀ r cr, m1.get r = some cr → cr.visited = true →
      (m.get r).map Cell.visited = some true ∨
        Relation.ReflTransGen m.Adj p r := by
    intro r cr hcr hcrv
    by_cases hrp : r = p
    · subst hrp
      exact Or.inr Relation.ReflTransGen.refl
    · rw [hm1ne r hrp] at hcr
      exact Or.inl (by rw [hcr, Option.map_some', hcrv])
  have hm1nomine : ∀ r cr, m1.get r = some cr → cr.mine = some true →
      cr.visited = false := by
    intro r cr hcr hcrm
    by_cases hrp : r = p
    · subst hrp
      rw [hm1self] at hcr
      injection hcr with h1
      rw [← h1] at hcrm
      exact absurd hcrm hcm
    · rw [hm1ne r hrp] at hcr
      exact hnomvis cr (Minefield.get_mem_cells hcr) hcrm
  have hm1mono : ∀ r, (m.get r).map Cell.visited = some true →
      (m1.get r).map Cell.visited = some true := by
    intro r hr
    by_cases hrp : r = p
    · subst hrp
      rw [hm1self]
      rfl
    · rw [hm1ne r hrp]
      exact hr
  have hconv : ∀ {mf : Minefield}, mf.WF →
      (∀ q cq, mf.get q = some cq → cq.mine = some true → cq.visited = false) →
      ∀ c ∈ mf.cells, c.mine = some true → c.visited = false := by
    intro mf hmfwf hget c hcmem hcm2
    exact hget c.position c (Minefield.wf_mem_get hmfwf hcmem) hcm2
  cases og1 with
  | some g =>
    simp only at hrun
    injection hrun with hout
    subst hout
    rcases hrev.2 with hnone | hwon
    · exact Option.noConfusion hnone
    · injection hwon with hg
      subst hg
      rcases htri with ⟨h1, -, -⟩ | ⟨-, -, h3⟩ | ⟨h1, -, -⟩
      · exact Option.noConfusion h1
      · exact ⟨Minefield.reach_visited_of_winPred hc hcm hm1map h3,
          hm1new, hconv hm1wf hm1nomine⟩
      · injection h1 with h1b
        exact GameOver.noConfusion h1b
  | none =>
    simp only at hrun
    have hm1res : m1.result = none ∧ m1.winPred = false := by
      rcases htri with ⟨-, h2, h3⟩ | ⟨h1, -, -⟩ | ⟨h1, -, -⟩
      · exact ⟨h2, h3⟩
      · exact Option.noConfusion h1
      · exact Option.noConfusion h1
    by_cases hrem : m1.remainingNeighboringMines p = 0
    · rw [if_pos hrem] at hrun
      have hzM : m.neighboringMines p = 0 := by
        rw [Minefield.remaining_eq_count hm1flag p,
          Minefield.neighboringMines_congr hm1map p] at hrem
        omega
      unfold Minefield.visitNeighbors at hrun
      rcases hloop : Minefield.visitLoop fuel m1
          (((m1.unvisitedNeighbors p).map Cell.position).reverse)
        with _ | ⟨m2, og2⟩
      · rw [hloop] at hrun
        exact Option.noConfusion hrun
      · rw [hloop] at hrun
        simp only at hrun
        injection hrun with hout
        subst hout
        have hseed : ∀ x ∈ ((m1.unvisitedNeighbors p).map Cell.position).reverse,
            Relation.ReflTransGen m.Adj p x ∧ (m.get x).isSome = true := by
          intro x hx
          rw [List.mem_reverse] at hx
          obtain ⟨hxnb, cx, hgx, hxv⟩ :=
            (Minefield.mem_unvisited_positions hm1wf p x).mp hx
          have hxsome : (m.get x).isSome = true := by
            rw [← Minefield.get_isSome_congr hm1map x, hgx]; rfl
          exact ⟨Relation.ReflTransGen.tail Relation.ReflTransGen.refl
            ⟨by rw [hc]; rfl, hzM, hxnb, hxsome⟩, hxsome⟩
        have hfront1 : ∀ a ca, m1.get a = some ca → ca.visited = true →
            m.neighboringMines a = 0 → ∀ r ∈ a.neighbors, ∀ cr,
              m1.get r = some cr → cr.visited = false →
              r ∈ ((m1.unvisitedNeighbors p).map Cell.position).reverse := by
          intro a ca hca hcav hza r hrnb cr hcr hcrv
          by_cases hap : a = p
          · rw [hap] at hrnb
            rw [List.mem_reverse]
            exact (Minefield.mem_unvisited_positions hm1wf p r).mpr
              ⟨hrnb, cr, hcr, hcrv⟩
          · have hrp : r ≠ p := by
              intro hrp
              subst hrp
              rw [hm1self] at hcr
              injection hcr with h1
              rw [← h1] at hcrv
              simp at hcrv
            rw [hm1ne a hap] at hca
            rw [hm1ne r hrp] at hcr
            have hcamem : ca ∈ m.cells := Minefield.get_mem_cells hca
            have hcapos : ca.position = a := Minefield.wf_get_position hwf hca
            have := hclosed ca hcamem hcav (by rw [hcapos]; exact hza) r
              (by rw [hcapos]; exact hrnb) cr (Option.mem_def.mpr hcr)
            rw [this] at hcrv
            exact Bool.noConfusion hcrv
        obtain ⟨ihA, ihB, ihC, ihD, ihE⟩ :=
          Minefield.cascadeLoop_main hreachm hloop hm1wf hm1map hm1flag
            hm1new hseed hfront1 hm1nomine
        have hm2wf : m2.WF := (Minefield.visitLoop_preserves hloop).1 hm1wf
        have hm2map : ∀ r, (m2.get r).map Cell.mine = (m.get r).map Cell.mine := by
          intro r
          rw [(Minefield.visitLoop_invariants hloop).1 r, hm1map r]
        refine ⟨?_, ihA, hconv hm2wf ihB⟩
        cases og2 with
        | none =>
          exact Minefield.reach_visited_of_closed hm2map
            (ihC p (by rw [hm1self]; rfl)) (ihD rfl)
        | some g =>
          cases g with
          | LOST => exact absurd rfl ihE
          | WON =>
            rcases Minefield.visitLoop_result hloop hm1res.1 hm1res.2 with
              ⟨h1, -, -⟩ | ⟨-, -, h3⟩ | ⟨h1, -, -⟩
            · exact Option.noConfusion h1
            · exact Minefield.reach_visited_of_winPred hc hcm hm2map h3
            · injection h1 with h1b
              exact GameOver.noConfusion h1b
    · rw [if_neg hrem] at hrun
      injection hrun with hout
      subst hout
      refine ⟨?_, hm1new, hconv hm1wf hm1nomine⟩
      intro q hq
      rcases Relation.ReflTransGen.cases_head hq with heq | ⟨r, hpr, -⟩
      · subst heq
        rw [hm1self]
        rfl
      · refine absurd hpr.2.1 ?_
        intro hz0
        refine hrem ?_
        rw [Minefield.remaining_eq_count hm1flag p,
          Minefield.neighboringMines_congr hm1map p, hz0]
        rfl

/-- C2, witness: on a flag-free, initialized, cascade-closed 4-by-1 field
(mine at (1,0), cells (2,0) and (3,0) already revealed), visiting the safe
corner (0,0) reveals exactly its reach set and never a mine. -/
theorem C2_witness :
    (c2wfield.WF ∧ c2wfield.result = none ∧ c2wfield.unstarted = false ∧
      c2wfield.winPred = false ∧
      (∀ c ∈ c2wfield.cells, c.flagged = false) ∧
      (∀ c ∈ c2wfield.cells, c.mine = some true → c.visited = false) ∧
      (∀ c ∈ c2wfield.cells, c.visited = true →
        c2wfield.neighboringMines c.position = 0 →
        ∀ r ∈ c.position.neighbors, ∀ cr ∈ c2wfield.get r, cr.visited = true) ∧
      c2wfield.get ⟨0, 0⟩ = some { position := ⟨0, 0⟩, mine := some false }) ∧
    ∃ out, c2wfield.visit 10 [] ⟨0, 0⟩ = some out ∧
      ((∀ q, c2wfield.Reach ⟨0, 0⟩ q →
        (out.1.get q).map Cell.visited = some true) ∧
       (∀ q cq, out.1.get q = some cq → cq.visited = true →
         (c2wfield.get q).map Cell.visited = some true ∨
           c2wfield.Reach ⟨0, 0⟩ q) ∧
       (∀ c ∈ out.1.cells, c.mine = some true → c.visited = false)) := by
  have hwf : c2wfield.WF := by
    have h1 : mkMinefield 4 1 1 = .ok c2w0 := rfl
    have h2 : c2w0.visit 10 [⟨1, 0⟩] ⟨3, 0⟩ = some (c2wfield, none) := rfl
    have hs : ValidSample c2w0 ⟨3, 0⟩ [⟨1, 0⟩] := by
      unfold ValidSample
      decide
    exact (Minefield.visit_GameInv h2 hs (GameInv_of_mk h1)).1
  refine ⟨⟨hwf, rfl, by decide, by decide, by decide, by decide, by decide,
    by decide⟩, ?_⟩
  rcases hrun : c2wfield.visit 10 [] ⟨0, 0⟩ with _ | out
  · exact absurd hrun (by decide)
  · exact ⟨out, rfl,
      C2_cascade_exact 10 [] hwf rfl (by decide) (by decide) (by decide)
        (by decide) (by decide)
        (by decide : c2wfield.get ⟨0, 0⟩ =
          some { position := ⟨0, 0⟩, mine := some false })
        rfl (by decide) hrun⟩
